import Mathlib

/-!
Verification of the data-driven content-synchronization pipeline of the
korolgroup.github.io repository.

The embedded functions are shallow Lean models of the JavaScript source:

* content/scripts/academic-integration.js — BibTeX extraction
  (parseBibtexFile), publication merge (updatePublicationsFromSources),
  data validation (validateAcademicData), metrics (generateAcademicMetrics);
* the content generator script — loadData, renderTemplate,
  generatePublicationHTML, generateSitemap;
* the content editor script — loadAndDisplayData, saveData, addPublication.

Modelling conventions: JavaScript strings are Lean Strings, arrays are Lists,
objects are structures or association lists in insertion order, absent/null
fields are Options, and numbers are integers (every numeric field of the data
model — years and counts — is an integer).  Functions that read the system
clock (new Date()) take the clock value as an explicit argument.  Recursive
scanners take an explicit fuel argument, instantiated with the input length,
so that every definition is structurally recursive and executable.
-/

set_option maxHeartbeats 1000000

set_option maxRecDepth 16384

/-- A publication record: the JSON objects stored in publications.json, also
built by the BibTeX extractor and the interactive editor.  Fields that some
producers leave absent or null (doi, image, awards) are Options. -/
structure Pub where
  id : String
  title : String
  authors : List String
  journal : String
  year : Int
  doi : Option String
  abstract : String
  type : String
  status : String
  image : Option String
  awards : Option (List String)
deriving Repr, DecidableEq, Inhabited

/-- One step of the merge loop of updatePublicationsFromSources
(academic-integration.js lines 134-140): an incoming record is pushed onto the
accumulated list only when no record with its id is already present there
(the JavaScript find runs against the growing mergedPublications array). -/
def mergeStep (acc : List Pub) (bibPub : Pub) : List Pub :=
  if acc.any (fun pub => pub.id == bibPub.id) then acc else acc ++ [bibPub]

/-- The merge of updatePublicationsFromSources (academic-integration.js lines
131-140): start from a copy of the existing publications and fold the incoming
BibTeX publications through `mergeStep`. -/
def updatePublicationsMerge (existing incoming : List Pub) : List Pub :=
  incoming.foldl mergeStep existing

/-- Concrete publications for witnesses. -/
def pubA : Pub :=
  { id := "a1", title := "Alpha", authors := [], journal := "J", year := 2020,
    doi := none, abstract := "", type := "journal", status := "published",
    image := none, awards := none }

def pubB : Pub :=
  { id := "b2", title := "Beta", authors := [], journal := "J", year := 2021,
    doi := none, abstract := "", type := "journal", status := "published",
    image := none, awards := none }

def exC1 : List Pub := [pubA]

def incC1 : List Pub := [pubB]

/-! ### The Data Store: JSON documents

The Data Store documents are JSON values.  saveData (editor script, lines
50-60) writes JSON.stringify(data, null, 2); loadAndDisplayData (lines 34-45)
and loadData (generator script, lines 22-31) read the file back with
JSON.parse.  The model below embeds JSON.stringify with a 2-space indent and
JSON.parse.  Numbers are modelled as arbitrary-precision integers: every
numeric field of the Data Store schema is an integer year or count, so the
fraction/exponent part of the JSON number grammar is out of the model's scope
(the parser rejects a fraction or exponent instead of reading a float), and
unicode escapes that do not denote a Unicode scalar value are rejected (Lean
strings are scalar sequences, JavaScript strings are UTF-16 code units). -/

/-- A JSON value as produced by JSON.parse: objects are association lists in
insertion order (JavaScript object property order for string keys). -/
inductive Json where
  | null
  | bool (b : Bool)
  | num (n : Int)
  | str (s : String)
  | arr (elements : List Json)
  | obj (members : List (String × Json))
deriving Inhabited

/-- JSON whitespace (the four characters the JSON grammar allows). -/
def isJsonWs (c : Char) : Bool :=
  c == ' ' || c == '\n' || c == '\r' || c == '\t'

/-- Drop leading JSON whitespace. -/
def skipJWs : List Char → List Char
  | [] => []
  | c :: cs => if isJsonWs c then skipJWs cs else c :: cs

/-- The decimal digit character for d < 10. -/
def digitChar (d : Nat) : Char := Char.ofNat (48 + d)

/-- Decimal digits of n, least significant first (fuel-recursive so that it is
structurally recursive and kernel-reducible; fuel ≥ n suffices). -/
def natDigitsRev : Nat → Nat → List Nat
  | 0, _ => []
  | f + 1, n => if n = 0 then [] else n % 10 :: natDigitsRev f (n / 10)

/-- The decimal digit characters of n, most significant first — the JavaScript
rendering of a nonnegative integer (Number.prototype.toString). -/
def natChars (n : Nat) : List Char :=
  if n = 0 then ['0'] else (natDigitsRev n n).reverse.map digitChar

/-- The JavaScript rendering of an integer: optional minus sign, then decimal
digits. -/
def intChars (i : Int) : List Char :=
  if i < 0 then '-' :: natChars i.natAbs else natChars i.natAbs

/-- String form of `intChars` (template-literal interpolation of a number). -/
def intStr (i : Int) : String := String.mk (intChars i)

/-- String form of `natChars`. -/
def natStr (n : Nat) : String := String.mk (natChars n)

/-- String.prototype.toLowerCase, modelled over the ASCII range (the only
case-bearing characters in the Data Store content). -/
def strToLower (s : String) : String := String.mk (s.data.map Char.toLower)

/-- String.prototype.startsWith. -/
def strStartsWith (s pre : String) : Bool := pre.data.isPrefixOf s.data

/-- String.prototype.split with a nonempty string separator: leftmost,
non-overlapping (fuel-recursive; fuel at least the input length suffices). -/
def splitCharsAux (sep : List Char) : Nat → List Char → List Char → List (List Char)
  | 0, acc, _ => [acc.reverse]
  | _ + 1, acc, [] => [acc.reverse]
  | f + 1, acc, c :: cs =>
      if sep.isPrefixOf (c :: cs) then
        acc.reverse :: splitCharsAux sep f [] ((c :: cs).drop sep.length)
      else splitCharsAux sep f (c :: acc) cs

/-- String.prototype.split with a string separator. -/
def jsSplit (s sep : String) : List String :=
  (splitCharsAux sep.data s.data.length [] s.data).map String.mk

/-- Lowercase hexadecimal digit character for d < 16 (Number.toString(16)). -/
def hexDigitChar (d : Nat) : Char :=
  if d < 10 then Char.ofNat (48 + d) else Char.ofNat (87 + d)

/-- The value of a hexadecimal digit character, if it is one. -/
def hexCharVal (c : Char) : Option Nat :=
  if 48 ≤ c.toNat && c.toNat ≤ 57 then some (c.toNat - 48)
  else if 97 ≤ c.toNat && c.toNat ≤ 102 then some (c.toNat - 87)
  else if 65 ≤ c.toNat && c.toNat ≤ 70 then some (c.toNat - 55)
  else none

/-- JSON.stringify's escaping of one string character: the two-character
escapes for quote, backslash, backspace, form feed, newline, carriage return
and tab; \u00xx for the remaining control characters; all other characters
unchanged. -/
def escapeChar (c : Char) : List Char :=
  if c == '"' then ['\\', '"']
  else if c == '\\' then ['\\', '\\']
  else if c == '\x08' then ['\\', 'b']
  else if c == '\x0c' then ['\\', 'f']
  else if c == '\n' then ['\\', 'n']
  else if c == '\r' then ['\\', 'r']
  else if c == '\t' then ['\\', 't']
  else if c.toNat < 32 then
    ['\\', 'u', '0', '0', hexDigitChar (c.toNat / 16), hexDigitChar (c.toNat % 16)]
  else [c]

/-- A JSON string literal: quote, escaped characters, quote. -/
def quoteChars (cs : List Char) : List Char :=
  '"' :: ((cs.map escapeChar).flatten ++ ['"'])

/-- Indentation at nesting level lvl for JSON.stringify(·, null, 2). -/
def indentChars (lvl : Nat) : List Char := List.replicate (2 * lvl) ' '

def nullChars : List Char := ['n', 'u', 'l', 'l']

def trueChars : List Char := ['t', 'r', 'u', 'e']

def falseChars : List Char := ['f', 'a', 'l', 's', 'e']

mutual

/-- JSON.stringify(v, null, 2) as a character list, at nesting level lvl.
Fuel-recursive; fuel ≥ sizeOf v suffices. -/
def printJson : Nat → Nat → Json → List Char
  | 0, _, _ => []
  | f + 1, lvl, v =>
    match v with
    | .null => nullChars
    | .bool true => trueChars
    | .bool false => falseChars
    | .num i => intChars i
    | .str s => quoteChars s.data
    | .arr [] => ['[', ']']
    | .arr (x :: t) =>
        '[' :: '\n' :: (printItems f (lvl + 1) (x :: t)
          ++ '\n' :: (indentChars lvl ++ [']']))
    | .obj [] => ['\x7b', '\x7d']
    | .obj (m :: t) =>
        '\x7b' :: '\n' :: (printMembers f (lvl + 1) (m :: t)
          ++ '\n' :: (indentChars lvl ++ ['\x7d']))
  termination_by structural f _ _ => f

/-- The comma-and-newline separated, indented element lines of a stringified
array. -/
def printItems : Nat → Nat → List Json → List Char
  | 0, _, _ => []
  | _ + 1, _, [] => []
  | f + 1, lvl, x :: t =>
      indentChars lvl ++ printJson f lvl x
        ++ (match t with
            | [] => []
            | _ :: _ => ',' :: '\n' :: printItems f lvl t)
  termination_by structural f _ _ => f

/-- The member lines of a stringified object ("key": value). -/
def printMembers : Nat → Nat → List (String × Json) → List Char
  | 0, _, _ => []
  | _ + 1, _, [] => []
  | f + 1, lvl, (k, v) :: t =>
      indentChars lvl ++ quoteChars k.data ++ ':' :: ' ' :: printJson f lvl v
        ++ (match t with
            | [] => []
            | _ :: _ => ',' :: '\n' :: printMembers f lvl t)
  termination_by structural f _ _ => f

end

mutual

/-- A structural size for JSON values, used as the fuel bound of the printer. -/
def jsize : Json → Nat
  | .null => 1
  | .bool _ => 1
  | .num _ => 1
  | .str _ => 1
  | .arr xs => 1 + jsizeL xs
  | .obj ms => 1 + jsizeP ms

def jsizeL : List Json → Nat
  | [] => 1
  | x :: t => 1 + jsize x + jsizeL t

def jsizeP : List (String × Json) → Nat
  | [] => 1
  | m :: t => 1 + jsize m.2 + jsizeP t

end

/-- JSON.stringify(v, null, 2) — the text saveData writes to disk. -/
def jsonStringify (v : Json) : String := String.mk (printJson (jsize v) 0 v)

/-- Decode one escape character after a backslash (other than \uXXXX). -/
def jsonUnescape : Char → Option Char
  | '"' => some '"'
  | '\\' => some '\\'
  | '/' => some '/'
  | 'b' => some '\x08'
  | 'f' => some '\x0c'
  | 'n' => some '\n'
  | 'r' => some '\r'
  | 't' => some '\t'
  | _ => none

/-- Parse the body of a JSON string literal after the opening quote, returning
the decoded characters and the input after the closing quote.  Raw control
characters and malformed escapes are rejected, as JSON.parse rejects them. -/
def parseJStringBody : List Char → Option (List Char × List Char)
  | [] => none
  | '"' :: rest => some ([], rest)
  | '\\' :: 'u' :: a :: b :: c :: d :: rest =>
      (match hexCharVal a, hexCharVal b, hexCharVal c, hexCharVal d with
       | some va, some vb, some vc, some vd =>
           let n := ((va * 16 + vb) * 16 + vc) * 16 + vd
           if Nat.isValidChar n then
             (parseJStringBody rest).map (fun p => (Char.ofNat n :: p.1, p.2))
           else none
       | _, _, _, _ => none)
  | '\\' :: e :: rest =>
      (match jsonUnescape e with
       | some ch => (parseJStringBody rest).map (fun p => (ch :: p.1, p.2))
       | none => none)
  | c :: rest =>
      if c.toNat < 32 then none
      else (parseJStringBody rest).map (fun p => (c :: p.1, p.2))

/-- Split off the leading run of decimal digit characters. -/
def takeDigitsRun : List Char → List Char × List Char
  | [] => ([], [])
  | c :: cs =>
      if c.isDigit then
        let p := takeDigitsRun cs
        (c :: p.1, p.2)
      else ([], c :: cs)

/-- Numeric value of a run of decimal digit characters. -/
def digitsVal (ds : List Char) : Nat :=
  ds.foldl (fun a c => a * 10 + (c.toNat - 48)) 0

/-- The JSON number grammar allows a leading zero only for the single digit 0. -/
def canonicalDigits : List Char → Bool
  | [] => false
  | [_] => true
  | c :: _ :: _ => !(c == '0')

/-- After an integer literal the model requires a character that cannot extend
a JSON number: a fraction or exponent would make the value non-integral, which
is outside the model's scope (see the section comment). -/
def numBoundary : List Char → Bool
  | [] => true
  | c :: _ => !(c.isDigit || c == '.' || c == 'e' || c == 'E')

/-- Parse a JSON integer literal: optional minus sign, then a canonical digit
run, not followed by a fraction or exponent. -/
def parseJNumber (cs : List Char) : Option (Int × List Char) :=
  match cs with
  | '-' :: rest =>
      (match takeDigitsRun rest with
       | ([], _) => none
       | (d :: ds, r) =>
           if canonicalDigits (d :: ds) && numBoundary r then
             some (-(digitsVal (d :: ds) : Int), r)
           else none)
  | _ =>
      (match takeDigitsRun cs with
       | ([], _) => none
       | (d :: ds, r) =>
           if canonicalDigits (d :: ds) && numBoundary r then
             some ((digitsVal (d :: ds) : Int), r)
           else none)

/-- JavaScript object construction from parsed key/value pairs: assignment to
an existing key overwrites its value in place, a fresh key is appended. -/
def insertPair (acc : List (String × Json)) (kv : String × Json) :
    List (String × Json) :=
  match acc with
  | [] => [kv]
  | (k0, v0) :: t => if k0 == kv.1 then (k0, kv.2) :: t else (k0, v0) :: insertPair t kv

/-- Fold parsed members into a JavaScript object (duplicate keys: last value
wins, at the first occurrence's position). -/
def objFromPairs (ps : List (String × Json)) : List (String × Json) :=
  ps.foldl insertPair []

mutual

/-- Parse one JSON value (fuel-recursive; fuel greater than the input length
suffices). -/
def parseJValue : Nat → List Char → Option (Json × List Char)
  | 0, _ => none
  | f + 1, cs =>
    match skipJWs cs with
    | 'n' :: 'u' :: 'l' :: 'l' :: r => some (.null, r)
    | 't' :: 'r' :: 'u' :: 'e' :: r => some (.bool true, r)
    | 'f' :: 'a' :: 'l' :: 's' :: 'e' :: r => some (.bool false, r)
    | '"' :: r => (parseJStringBody r).map (fun p => (.str (String.mk p.1), p.2))
    | '[' :: r =>
        (match skipJWs r with
         | ']' :: r2 => some (.arr [], r2)
         | _ => (parseJItems f r).map (fun p => (.arr p.1, p.2)))
    | '\x7b' :: r =>
        (match skipJWs r with
         | '\x7d' :: r2 => some (.obj [], r2)
         | _ => (parseJMembers f r).map (fun p => (.obj (objFromPairs p.1), p.2)))
    | c :: r =>
        if c == '-' || c.isDigit then
          (parseJNumber (c :: r)).map (fun p => (.num p.1, p.2))
        else none
    | [] => none

/-- Parse one or more comma-separated array elements up to the closing
bracket. -/
def parseJItems : Nat → List Char → Option (List Json × List Char)
  | 0, _ => none
  | f + 1, cs =>
    match parseJValue f cs with
    | none => none
    | some (v, r) =>
      match skipJWs r with
      | ',' :: r2 => (parseJItems f r2).map (fun p => (v :: p.1, p.2))
      | ']' :: r2 => some ([v], r2)
      | _ => none

/-- Parse one or more comma-separated object members up to the closing
brace. -/
def parseJMembers : Nat → List Char → Option (List (String × Json) × List Char)
  | 0, _ => none
  | f + 1, cs =>
    match skipJWs cs with
    | '"' :: r =>
      (match parseJStringBody r with
       | none => none
       | some (k, r1) =>
         match skipJWs r1 with
         | ':' :: r2 =>
           (match parseJValue f r2 with
            | none => none
            | some (v, r3) =>
              match skipJWs r3 with
              | ',' :: r4 =>
                  (parseJMembers f r4).map (fun p => ((String.mk k, v) :: p.1, p.2))
              | '\x7d' :: r4 => some ([(String.mk k, v)], r4)
              | _ => none)
         | _ => none)
    | _ => none

end

/-- JSON.parse: one value, then only trailing whitespace. -/
def jsonParse (s : String) : Option Json :=
  match parseJValue (s.length + 1) s.data with
  | some (v, r) => if (skipJWs r).isEmpty then some v else none
  | none => none

/-- saveData (editor script lines 50-60): the text written to the data file. -/
def saveDataText (d : Json) : String := jsonStringify d

/-- loadAndDisplayData / loadData: JSON.parse of the file text (none models
the caught parse/read error, where the functions return null). -/
def loadDataText (s : String) : Option Json := jsonParse s

/-- Well-formed JavaScript values: object key lists have no duplicates (a
JavaScript object cannot hold two properties with the same name). -/
inductive WFJson : Json → Prop where
  | null : WFJson .null
  | bool : ∀ b, WFJson (.bool b)
  | num : ∀ n, WFJson (.num n)
  | str : ∀ s, WFJson (.str s)
  | arr : ∀ xs, (∀ x ∈ xs, WFJson x) → WFJson (.arr xs)
  | obj : ∀ ms, (ms.map Prod.fst).Nodup → (∀ m ∈ ms, WFJson m.2) → WFJson (.obj ms)

/-- No duplicates among a key list, as a boolean. -/
def keysNodupB : List String → Bool
  | [] => true
  | k :: t => !(t.contains k) && keysNodupB t

mutual

/-- Boolean well-formedness check (fuel-recursive, for concrete witnesses;
fuel ≥ sizeOf v suffices). -/
def wfJsonB : Nat → Json → Bool
  | 0, _ => false
  | f + 1, v =>
    match v with
    | .arr xs => wfJListB f xs
    | .obj ms => keysNodupB (ms.map Prod.fst) && wfJPairsB f ms
    | _ => true
  termination_by structural f _ => f

def wfJListB : Nat → List Json → Bool
  | 0, _ => false
  | _ + 1, [] => true
  | f + 1, x :: t => wfJsonB f x && wfJListB f t
  termination_by structural f _ => f

def wfJPairsB : Nat → List (String × Json) → Bool
  | 0, _ => false
  | _ + 1, [] => true
  | f + 1, m :: t => wfJsonB f m.2 && wfJPairsB f t
  termination_by structural f _ => f

end

/-- A well-formed Data Store document: some fuel certifies the boolean check
(witnesses supply a concrete fuel literal, so the check kernel-evaluates). -/
def WFDoc (v : Json) : Prop := ∃ f, wfJsonB f v = true

/-- A concrete publications-style document for the round-trip witness. -/
def docC3 : Json :=
  Json.obj [(r"publications", Json.arr [Json.obj [(r"id", Json.str r"korol2024"),
              (r"year", Json.num 2024)]]),
            (r"statistics", Json.obj [(r"total_publications", Json.num 1)])]

/-! ### Renderers (content generator script)

generatePublicationHTML (lines 59-83) and generateSitemap (lines 211-232).
The sitemap writes a lastmod field from new Date(), so the model takes the
current ISO date (the part before the T) as an explicit argument. -/

/-- JavaScript template-literal interpolation of a possibly-absent string
(an undefined field prints as the text undefined). -/
def optStr : Option String → String
  | some s => s
  | none => "undefined"

/-- Scan for String.prototype.replace with a string pattern: replace the
first occurrence only (fuel-recursive). -/
def replaceFirstAux (pat repl : List Char) : Nat → List Char → List Char
  | 0, cs => cs
  | _ + 1, [] => []
  | f + 1, c :: cs =>
      if pat.isPrefixOf (c :: cs) then repl ++ (c :: cs).drop pat.length
      else c :: replaceFirstAux pat repl f cs

/-- JavaScript String.prototype.replace with a string pattern: replace the
first occurrence only. -/
def replaceFirst (s pat repl : String) : String :=
  String.mk (replaceFirstAux pat.data repl.data s.data.length s.data)

def ownerMarker : String := "R Korol"

def ownerMarkerBold : String := "<b>R Korol</b>"

def commaSpace : String := ", "

/-- The authors line of generatePublicationHTML: join with a comma and bold
the first occurrence of the owner's name. -/
def authorsLine (authors : List String) : String :=
  replaceFirst (String.intercalate commaSpace authors) ownerMarker ownerMarkerBold

/-- The doi fragment: a doi link when the doi is truthy, otherwise empty. -/
def doiFragment : Option String → String
  | none => ""
  | some d =>
      if d == "" then ""
      else "<a href=\"https://doi.org/" ++ d ++ "\">" ++ d ++ "</a>"

/-- The awards fragment: a space-joined list of award spans when the awards
array is present (an empty array is truthy and joins to the empty string). -/
def awardsFragment : Option (List String) → String
  | none => ""
  | some l =>
      String.intercalate " " (l.map (fun award => "<span class=\"award\">" ++ award ++ "</span>"))

/-- generatePublicationHTML (content generator script lines 59-83), the exact
template-literal text. -/
def generatePublicationHTML (pub : Pub) : String :=
  "\n    <div class=\"publication\" data-year=\"" ++ intStr pub.year
    ++ "\" data-status=\"" ++ pub.status
    ++ "\">\n        <div id=\"" ++ pub.id
    ++ "\" class=\"hidden\">\n            " ++ authorsLine pub.authors
    ++ " <i>" ++ pub.journal
    ++ "</i> <b>" ++ intStr pub.year
    ++ "</b>\n            " ++ doiFragment pub.doi
    ++ "\n            " ++ awardsFragment pub.awards
    ++ "\n            <a class=\"image left\">\n                <img class=\"myBtn_multi\" src=\""
    ++ optStr pub.image
    ++ "\"\n                     alt=\"Publication thumbnail for " ++ pub.title
    ++ "\"\n                     title=\"" ++ pub.title
    ++ "\">\n            </a>\n            <div class=\"modal modal_multi\">\n                <span class=\"close close_multi\">√ó</span>\n                <img class=\"modal-content\" src=\""
    ++ optStr pub.image
    ++ "\"\n                     alt=\"Research figure: " ++ pub.title
    ++ "\">\n            </div>\n            <p>" ++ pub.abstract
    ++ "</p>\n        </div>\n    </div>"

/-- One entry of the fixed page list of generateSitemap. -/
structure SitePage where
  url : String
  changefreq : String
  priority : String

/-- The fixed five-page list of generateSitemap (lines 212-218). -/
def sitePages : List SitePage :=
  [{ url := "", changefreq := "monthly", priority := "1.0" },
   { url := "research.html", changefreq := "monthly", priority := "0.9" },
   { url := "news.html", changefreq := "weekly", priority := "0.8" },
   { url := "learn.html", changefreq := "monthly", priority := "0.7" },
   { url := "activities.html", changefreq := "monthly", priority := "0.7" }]

def siteBaseUrl : String := "https://romankorol.com"

/-- One url element of the sitemap; todayISO models
new Date().toISOString().split('T')[0], the run date. -/
def sitemapUrlEntry (todayISO : String) (page : SitePage) : String :=
  "\n    <url>\n        <loc>" ++ siteBaseUrl ++ "/" ++ page.url
    ++ "</loc>\n        <changefreq>" ++ page.changefreq
    ++ "</changefreq>\n        <priority>" ++ page.priority
    ++ "</priority>\n        <lastmod>" ++ todayISO
    ++ "</lastmod>\n    </url>"

/-- generateSitemap (lines 211-232): the full sitemap text; its lastmod fields
hold the current date, which is therefore an input of the model. -/
def generateSitemap (todayISO : String) : String :=
  "<?xml version=\"1.0\" encoding=\"UTF-8\"?>\n<urlset xmlns=\"http://www.sitemaps.org/schemas/sitemap/0.9\">\n"
    ++ String.join (sitePages.map (sitemapUrlEntry todayISO))
    ++ "\n</urlset>"

def dayOne : String := "2025-01-01"

def dayTwo : String := "2025-01-02"

/-! ### The template engine (renderTemplate, content generator lines 49-54)

template.replace(/\{\{(\w+(?:\.\w+)*)\}\}/g, ...) with a dotted-path lookup
obj?.[prop] into the data record and String(value) coercion of the result;
an unresolved path (undefined) leaves the matched text unchanged.  Property
access is modelled for JSON data: object keys and canonical array indices;
prototype properties of primitives (such as length) are not modelled. -/

/-- A JavaScript word character (the regex class backslash-w). -/
def isWordChar (c : Char) : Bool := c.isAlphanum || c == '_'

mutual

/-- JavaScript String(value) for a JSON value (fuel-recursive). -/
def jsToStrF : Nat → Json → String
  | 0, _ => ""
  | f + 1, v =>
    match v with
    | .null => "null"
    | .bool true => "true"
    | .bool false => "false"
    | .num i => intStr i
    | .str s => s
    | .arr xs => String.intercalate "," (jsToElemsF f xs)
    | .obj _ => "[object Object]"
  termination_by structural f _ => f

/-- Array.prototype.toString joins elements with commas; null elements print
as the empty string. -/
def jsToElemsF : Nat → List Json → List String
  | 0, _ => []
  | _ + 1, [] => []
  | f + 1, x :: t =>
      (match x with
       | .null => ""
       | _ => jsToStrF f x) :: jsToElemsF f t
  termination_by structural f _ => f

end

/-- JavaScript String(value) for a JSON value. -/
def jsToStr (v : Json) : String := jsToStrF (jsize v) v

/-- One step of the optional-chained property access obj?.[prop]: object key
lookup, or a canonical decimal index into an array. -/
def jsGetProp (v : Json) (prop : String) : Option Json :=
  match v with
  | .obj kvs => (kvs.find? (fun kv => kv.1 == prop)).map (fun kv => kv.2)
  | .arr xs =>
      (if !prop.data.isEmpty && prop.data.all Char.isDigit
          && natStr (digitsVal prop.data) == prop
       then xs.get? (digitsVal prop.data) else none)
  | _ => none

def dotStr : String := "."

/-- key.split('.').reduce((obj, prop) => obj?.[prop], data). -/
def resolvePath (data : Json) (key : String) : Option Json :=
  (jsSplit key dotStr).foldl
    (fun acc prop =>
      match acc with
      | none => none
      | some v => jsGetProp v prop)
    (some data)

/-- Greedy scan of the (?:\.\w+)* groups of the placeholder key: returns the
scanned characters and the remainder. -/
def parseWordGroups : List Char → List Char × List Char
  | '.' :: cs =>
      let w := cs.takeWhile isWordChar
      if w.isEmpty then ([], '.' :: cs)
      else
        let p := parseWordGroups (cs.drop w.length)
        ('.' :: (w ++ p.1), p.2)
  | cs => ([], cs)
termination_by cs => cs.length
decreasing_by
  simp only [List.length_drop, List.length_cons]
  omega

/-- Try to match \w+(?:\.\w+)*\}\} at the position after two opening braces,
returning the captured key and the input after the closing braces. -/
def matchPlaceholder (cs : List Char) : Option (String × List Char) :=
  let w := cs.takeWhile isWordChar
  if w.isEmpty then none
  else
    let p := parseWordGroups (cs.drop w.length)
    match p.2 with
    | '\x7d' :: '\x7d' :: rest => some (String.mk (w ++ p.1), rest)
    | _ => none

/-- The global-replace scan of renderTemplate: at each position, try to match
a placeholder; on a match, emit the coerced resolved value (or the matched
text itself when the path is unresolved) and continue after it; otherwise
copy one character.  Fuel-recursive; fuel at least the input length
suffices. -/
def renderAux : Nat → Json → List Char → List Char
  | 0, _, _ => []
  | _ + 1, _, [] => []
  | f + 1, data, c :: cs =>
    if c = '\x7b' then
      match cs with
      | c2 :: cs2 =>
        if c2 = '\x7b' then
          match matchPlaceholder cs2 with
          | some (key, rest) =>
              (match resolvePath data key with
               | some v => (jsToStr v).data
               | none => '\x7b' :: '\x7b' :: (key.data ++ ['\x7d', '\x7d']))
                ++ renderAux f data rest
          | none => c :: renderAux f data cs
        else c :: renderAux f data cs
      | [] => [c]
    else c :: renderAux f data cs

/-- renderTemplate (content generator lines 49-54). -/
def renderTemplate (template : String) (data : Json) : String :=
  String.mk (renderAux template.data.length data template.data)

/-! ### The BibTeX extractor (parseBibtexFile, academic-integration.js 23-68)

Two regex passes: the entry regex /@(\w+)\{([^,]+),\s*([\s\S]*?)\n\}/g and the
field regex /(\w+)\s*=\s*\{([^}]*)\}/g, each modelled as the scan the regex
engine performs (leftmost match, greedy \w+ and \s*, lazy body ending at the
first newline-brace).  parseInt is modelled for decimal input with optional
sign (no 0x prefix appears in year fields). -/

/-- The JavaScript regex whitespace class backslash-s. -/
def isJsWs (c : Char) : Bool :=
  c.toNat == 32 || c.toNat == 9 || c.toNat == 10 || c.toNat == 11 || c.toNat == 12
    || c.toNat == 13 || c.toNat == 160 || c.toNat == 5760
    || (8192 ≤ c.toNat && c.toNat ≤ 8202)
    || c.toNat == 8232 || c.toNat == 8233 || c.toNat == 8239 || c.toNat == 8287
    || c.toNat == 12288 || c.toNat == 65279

/-- Split the input at the first occurrence of sub: the part before it and
the part after it, or none when sub does not occur. -/
def splitAtSub (sub : List Char) : List Char → Option (List Char × List Char)
  | [] => if sub.isEmpty then some ([], []) else none
  | c :: t =>
      if sub.isPrefixOf (c :: t) then some ([], (c :: t).drop sub.length)
      else (splitAtSub sub t).map (fun p => (c :: p.1, p.2))

/-- A scanned BibTeX entry: type word, citation key, raw body text. -/
structure BibEntry where
  etype : String
  key : String
  content : String
deriving Repr, DecidableEq

/-- Try to match the entry regex right after an at sign: the type word, an
open brace, the key (everything up to the first comma), the comma, the
greedy whitespace run, then the lazy body ending at the first
newline-closing-brace (with the regex backtracking case in which that
newline is the last whitespace character). -/
def tryBibEntry (cs : List Char) : Option (BibEntry × List Char) :=
  let w := cs.takeWhile isWordChar
  if w.isEmpty then none
  else
    match cs.drop w.length with
    | '\x7b' :: r1 =>
        let key := r1.takeWhile (fun c => !(c == ','))
        if key.isEmpty then none
        else
          (match r1.drop key.length with
           | ',' :: r2 =>
               let ws := r2.takeWhile isJsWs
               (match splitAtSub ['\n', '\x7d'] (r2.drop ws.length) with
                | some (content, rest) =>
                    some ({ etype := String.mk w, key := String.mk key,
                            content := String.mk content }, rest)
                | none =>
                    match ws.getLast?, r2.drop ws.length with
                    | some '\n', '\x7d' :: rest =>
                        some ({ etype := String.mk w, key := String.mk key,
                                content := "" }, rest)
                    | _, _ => none)
           | _ => none)
    | _ => none

/-- The global scan of the entry regex: at each at sign try an entry match
and continue after it; otherwise advance one character (fuel-recursive; fuel
at least the input length suffices). -/
def bibtexEntriesCore : Nat → List Char → List BibEntry
  | 0, _ => []
  | _ + 1, [] => []
  | f + 1, c :: cs =>
      if c = '@' then
        match tryBibEntry cs with
        | some (e, rest) => e :: bibtexEntriesCore f rest
        | none => bibtexEntriesCore f cs
      else bibtexEntriesCore f cs

/-- All entries the entry regex finds in the BibTeX text. -/
def bibtexEntries (s : String) : List BibEntry :=
  bibtexEntriesCore s.data.length s.data

/-- The global scan of the field regex over an entry body (fuel-recursive). -/
def bibFieldsAux : Nat → List Char → List (String × String)
  | 0, _ => []
  | _ + 1, [] => []
  | f + 1, c :: cs =>
      if isWordChar c then
        let w := (c :: cs).takeWhile isWordChar
        let r1 := (c :: cs).drop w.length
        let ws1 := r1.takeWhile isJsWs
        (match r1.drop ws1.length with
         | '=' :: r2 =>
             let ws2 := r2.takeWhile isJsWs
             (match r2.drop ws2.length with
              | '\x7b' :: r3 =>
                  let val := r3.takeWhile (fun cc => !(cc == '\x7d'))
                  (match r3.drop val.length with
                   | '\x7d' :: r4 => (String.mk w, String.mk val) :: bibFieldsAux f r4
                   | _ => bibFieldsAux f cs)
              | _ => bibFieldsAux f cs)
         | _ => bibFieldsAux f cs)
      else bibFieldsAux f cs

/-- The fields object built from an entry body: assignment order, later
assignments to the same name win. -/
def bibFields (content : String) : List (String × String) :=
  bibFieldsAux content.data.length content.data

/-- Read a field from the fields object (the last assignment wins, as in a
JavaScript object). -/
def fieldVal (fields : List (String × String)) (name : String) : Option String :=
  (fields.reverse.find? (fun kv => kv.1 == name)).map (fun kv => kv.2)

/-- JavaScript truthiness of a possibly-absent string. -/
def truthyOptS : Option String → Bool
  | none => false
  | some s => !(s == "")

/-- parseInt on a decimal string: skip whitespace, optional sign, then a
digit run; none models NaN. -/
def jsParseInt (s : String) : Option Int :=
  match s.data.dropWhile isJsWs with
  | '-' :: r =>
      let ds := r.takeWhile Char.isDigit
      if ds.isEmpty then none else some (-(digitsVal ds : Int))
  | '+' :: r =>
      let ds := r.takeWhile Char.isDigit
      if ds.isEmpty then none else some ((digitsVal ds : Int))
  | cs =>
      let ds := cs.takeWhile Char.isDigit
      if ds.isEmpty then none else some ((digitsVal ds : Int))

def titleField : String := "title"

def authorField : String := "author"

def journalField : String := "journal"

def yearField : String := "year"

def doiField : String := "doi"

def abstractField : String := "abstract"

def articleWord : String := "article"

def unknownJournal : String := "Unknown Journal"

def andSep : String := " and "

def journalWord : String := "journal"

def publishedWord : String := "published"

/-- Turn one scanned entry into a candidate publication, as the loop body of
parseBibtexFile (lines 48-59) does: only an article entry with a truthy
title qualifies; each missing or falsy field gets its explicit default. -/
def entryToPub (cy : Int) (e : BibEntry) : Option Pub :=
  let fields := bibFields e.content
  if strToLower e.etype == articleWord && truthyOptS (fieldVal fields titleField) then
    some
      { id := e.key,
        title := (fieldVal fields titleField).getD "",
        authors :=
          (match fieldVal fields authorField with
           | some a => if a == "" then [] else jsSplit a andSep
           | none => []),
        journal :=
          (match fieldVal fields journalField with
           | some j => if j == "" then unknownJournal else j
           | none => unknownJournal),
        year :=
          (match fieldVal fields yearField with
           | some y =>
               (match jsParseInt y with
                | some n => if n == 0 then cy else n
                | none => cy)
           | none => cy),
        doi :=
          (match fieldVal fields doiField with
           | some d => if d == "" then none else some d
           | none => none),
        abstract := (fieldVal fields abstractField).getD "",
        type := journalWord,
        status := publishedWord,
        image := none,
        awards := none }
  else none

/-- parseBibtexFile (lines 23-68) on the file text, with the current year cy
(new Date().getFullYear()) explicit. -/
def parseBibtexModel (content : String) (cy : Int) : List Pub :=
  (bibtexEntries content).filterMap (entryToPub cy)

/-! ### The validator (validateAcademicData, academic-integration.js 203-256)

The checks over personal.json and the publications collection, with the
current year (new Date().getFullYear()) explicit.  File-system access and the
console reporting are outside the model; the function's value is its issue
list. -/

/-- The fields of personal.json the validator reads. -/
structure PersonalDoc where
  name : String
  title : String
deriving Repr, DecidableEq

/-- JavaScript truthiness of a string. -/
def truthyStr (s : String) : Bool := !(s == "")

def pubIssueHead : String := "Publication "

def missingSuffix : String := ": Missing title or authors"

def doiSuffix : String := ": Invalid DOI format"

def yearSuffix : String := ": Invalid year"

def personalIssue : String := "Missing required personal information"

def dupIssueHead : String := "Duplicate publications found: "

def doiPattern : String := "10."

def pubIssueMissing (i : Nat) : String := pubIssueHead ++ natStr (i + 1) ++ missingSuffix

def pubIssueDoi (i : Nat) : String := pubIssueHead ++ natStr (i + 1) ++ doiSuffix

def pubIssueYear (i : Nat) : String := pubIssueHead ++ natStr (i + 1) ++ yearSuffix

/-- !pub.title || !pub.authors || pub.authors.length === 0 (authors is always
an array in the model, so only the empty string and the empty list are
falsy). -/
def missingCheck (p : Pub) : Bool := !(truthyStr p.title) || p.authors.isEmpty

/-- pub.doi && !pub.doi.startsWith('10.'). -/
def doiCheck (p : Pub) : Bool :=
  match p.doi with
  | none => false
  | some d => truthyStr d && !(strStartsWith d doiPattern)

/-- !pub.year || pub.year < 1900 || pub.year > currentYear + 2 (a zero year
is falsy). -/
def yearCheck (cy : Int) (p : Pub) : Bool :=
  p.year == 0 || p.year < 1900 || p.year > cy + 2

/-- The issues one publication contributes, in source order. -/
def perPubIssues (cy : Int) (i : Nat) (p : Pub) : List String :=
  (if missingCheck p then [pubIssueMissing i] else [])
    ++ (if doiCheck p then [pubIssueDoi i] else [])
    ++ (if yearCheck cy p then [pubIssueYear i] else [])

/-- The forEach over the publication collection with its running index. -/
def perPubIssuesFrom (cy : Int) : Nat → List Pub → List String
  | _, [] => []
  | i, p :: t => perPubIssues cy i p ++ perPubIssuesFrom cy (i + 1) t

/-- titles.filter((title, index) => titles.indexOf(title) !== index): keep
every occurrence that is not the first occurrence of its value. -/
def jsDupFilterFrom (all : List String) : Nat → List String → List String
  | _, [] => []
  | i, t0 :: rest =>
      (if all.indexOf t0 == i then [] else [t0]) ++ jsDupFilterFrom all (i + 1) rest

def jsDupTitles (titles : List String) : List String := jsDupFilterFrom titles 0 titles

/-- validateAcademicData (lines 203-256): the issue list, in source order —
the personal-information check, the per-publication checks, then the single
duplicate-title issue when any duplicate exists. -/
def validateAcademicData (personal : PersonalDoc) (pubs : List Pub) (cy : Int) :
    List String :=
  (if !(truthyStr personal.name) || !(truthyStr personal.title)
   then [personalIssue] else [])
    ++ perPubIssuesFrom cy 0 pubs
    ++ (let dups := jsDupTitles (pubs.map (fun p => strToLower p.title))
        if dups.isEmpty then [] else [dupIssueHead ++ String.intercalate commaSpace dups])

/-! ### Academic metrics (generateAcademicMetrics, academic-integration.js
261-328)

The pure aggregation over the publications collection, with the run date
explicit.  JavaScript objects keyed by year/status/type are association
lists in insertion order; the collaborator Set is a duplicate-free list in
insertion order. -/

/-- The metrics object (lines 272-280). -/
structure Metrics where
  total_publications : Nat
  publications_by_year : List (Int × Nat)
  publications_by_status : List (String × Nat)
  publications_by_type : List (String × Nat)
  latest_publication : Option Pub
  collaboration_network : List String
  last_updated : String
deriving Repr, DecidableEq

/-- obj[k] = (obj[k] || 0) + 1 on an insertion-ordered association list. -/
def bumpCount {α : Type} [BEq α] : List (α × Nat) → α → List (α × Nat)
  | [], k => [(k, 1)]
  | (k0, n) :: t, k => if k0 == k then (k0, n + 1) :: t else (k0, n) :: bumpCount t k

/-- publishedPubs.reduce((latest, pub) => pub.year > latest.year ? pub : latest)
— reduce without an initial value starts from the first element. -/
def latestReduce (h : Pub) (t : List Pub) : Pub :=
  t.foldl (fun latest pub => if pub.year > latest.year then pub else latest) h

def romanSubstr : String := "Roman"

/-- Substring containment (String.prototype.includes). -/
def hasInfix (sub : List Char) : List Char → Bool
  | [] => sub.isEmpty
  | c :: t => sub.isPrefixOf (c :: t) || hasInfix sub t

def containsSubstr (s sub : String) : Bool := hasInfix sub.data s.data

/-- The Set.add loop body of the collaboration network (lines 304-310): an
author is added unless it equals 'R Korol' or contains 'Roman'; the Set keeps
first-insertion order without duplicates. -/
def collabAddAuthor (acc : List String) (author : String) : List String :=
  if !(author == ownerMarker) && !(containsSubstr author romanSubstr) then
    (if acc.contains author then acc else acc ++ [author])
  else acc

/-- Array.from of the collaborator Set accumulated over all publications. -/
def collaborationNetwork (pubs : List Pub) : List String :=
  pubs.foldl (fun acc p => p.authors.foldl collabAddAuthor acc) []

/-- generateAcademicMetrics (lines 261-328): the metrics derived from the
publications collection. -/
def generateAcademicMetrics (pubs : List Pub) (todayISO : String) : Metrics :=
  let maps := pubs.foldl
    (fun (m : List (Int × Nat) × List (String × Nat) × List (String × Nat)) p =>
      (bumpCount m.1 p.year, bumpCount m.2.1 p.status, bumpCount m.2.2 p.type))
    ([], [], [])
  let publishedPubs := pubs.filter (fun p => p.status == publishedWord)
  { total_publications := pubs.length,
    publications_by_year := maps.1,
    publications_by_status := maps.2.1,
    publications_by_type := maps.2.2,
    latest_publication :=
      (match publishedPubs with
       | [] => none
       | h :: t => some (latestReduce h t)),
    collaboration_network := collaborationNetwork pubs,
    last_updated := todayISO }

/-! ### The interactive editor (content editor script) and the update path -/

/-- The statistics fields the editor touches. -/
structure PubStats where
  total_publications : Nat
  last_updated : String
deriving Repr, DecidableEq

/-- The publications.json document as the editor sees it. -/
structure PublicationsDoc where
  publications : List Pub
  statistics : PubStats
deriving Repr, DecidableEq

/-- addPublication (editor script lines 65-94): unshift the new record, then
set statistics.total_publications to the new length and stamp the date. -/
def addPublication (doc : PublicationsDoc) (pub : Pub) (todayISO : String) :
    PublicationsDoc :=
  { publications := pub :: doc.publications,
    statistics :=
      { total_publications := (pub :: doc.publications).length,
        last_updated := todayISO } }

/-- updatePublicationsFromSources (academic-integration.js 115-153) after a
successful BibTeX parse: merge, then set statistics.total_publications to the
merged length and stamp the date. -/
def updatePublicationsFromSources (doc : PublicationsDoc) (bibPubs : List Pub)
    (todayISO : String) : PublicationsDoc :=
  let merged := updatePublicationsMerge doc.publications bibPubs
  { publications := merged,
    statistics :=
      { total_publications := merged.length,
        last_updated := todayISO } }

/-! ### Concrete records for witnesses and counterexamples -/

def emptyTitlePub : Pub :=
  { id := "w1", title := "Dup Title", authors := [], journal := "J", year := 1850,
    doi := some "abc", abstract := "", type := "journal", status := "published",
    image := none, awards := none }

def secondTitlePub : Pub :=
  { id := "w2", title := "dup title", authors := [], journal := "J", year := 2020,
    doi := none, abstract := "", type := "journal", status := "submitted",
    image := none, awards := none }

def personalOk : PersonalDoc := { name := "Roman Korol", title := "Postdoc" }

def pubsC4 : List Pub := [emptyTitlePub, secondTitlePub]

def mkPubYS (i : String) (y : Int) (st : String) : Pub :=
  { id := i, title := i, authors := [], journal := "J", year := y,
    doi := none, abstract := "", type := "journal", status := st,
    image := none, awards := none }

def pubsC5 : List Pub :=
  [mkPubYS "p1" 2023 "published", mkPubYS "p2" 2023 "submitted",
   mkPubYS "p3" 2024 "published"]

def romanovName : String := "A Romanov"

def pubC7 : Pub :=
  { id := "c7", title := "T", authors := [romanovName], journal := "J", year := 2020,
    doi := none, abstract := "", type := "journal", status := "published",
    image := none, awards := none }

def pubsC7 : List Pub := [pubC7]

def bibOneLine : String :=
  "@article\x7bk1, title=\x7bT\x7d, year=\x7b2022\x7d\x7d"

def bibMultiLine : String :=
  "@article\x7bk1, title=\x7bT\x7d, year=\x7b2022\x7d\n\x7d"

def bibC9 : String :=
  "@book\x7bb1, title=\x7bB\x7d\n\x7d\n@article\x7bk9, title=\x7bT9\x7d\n\x7d"

def pC9 : Pub :=
  { id := "k9", title := "T9", authors := [], journal := unknownJournal,
    year := 2025, doi := none, abstract := "", type := journalWord,
    status := publishedWord, image := none, awards := none }

def templC8 : String := "{{personal.name}}"

def keyC8 : String := "personal.name"

def dataC8 : Json :=
  Json.obj [(r"personal", Json.obj [(r"name", Json.str r"Roman Korol")])]

def openBraces : String := "\x7b\x7b"

def closeBraces : String := "\x7d\x7d"

/-- The literal matched text of a placeholder with the given key. -/
def placeholderOf (key : String) : String := openBraces ++ key ++ closeBraces

/-- The (?:\.\w+)* part of the placeholder key grammar, as a boolean
(fuel-recursive; fuel at least the input length suffices). -/
def validGroupsB : Nat → List Char → Bool
  | 0, cs => cs.isEmpty
  | _ + 1, [] => true
  | f + 1, '.' :: cs =>
      let w := cs.takeWhile isWordChar
      !w.isEmpty && validGroupsB f (cs.drop w.length)
  | _ + 1, _ => false

/-- The full placeholder key grammar \w+(?:\.\w+)*, as a boolean. -/
def validKeyChars (cs : List Char) : Bool :=
  let w := cs.takeWhile isWordChar
  !w.isEmpty && validGroupsB cs.length (cs.drop w.length)

/-- A key the placeholder regex accepts. -/
def ValidKey (key : String) : Prop := validKeyChars key.data = true

/-- A piece of template text the placeholder regex can never match into:
it contains no opening brace at all. -/
def InertPiece (s : String) : Prop := '\x7b' ∉ s.data

/-- A piece of template text that is exactly one placeholder. -/
def PlaceholderPiece (s : String) : Prop :=
  ∃ key, ValidKey key ∧ s = placeholderOf key

/-- The merge fold only ever appends: the result is the accumulator followed by
a sublist of the folded records. -/
theorem mergeFold_append (l : List Pub) :
    ∀ acc : List Pub, ∃ s, l.foldl mergeStep acc = acc ++ s ∧ s.Sublist l := by
  induction l with
  | nil => intro acc; exact ⟨[], by simp, by simp⟩
  | cons p t ih =>
    intro acc
    by_cases h : acc.any (fun pub => pub.id == p.id)
    · obtain ⟨s, hs, hsub⟩ := ih acc
      refine ⟨s, ?_, hsub.cons p⟩
      simpa [mergeStep, h] using hs
    · obtain ⟨s, hs, hsub⟩ := ih (acc ++ [p])
      refine ⟨p :: s, ?_, hsub.cons₂ p⟩
      simp only [List.foldl_cons, mergeStep, h, if_false]
      simpa using hs

/-- After folding, every folded record's id occurs somewhere in the result. -/
theorem mergeFold_id_mem (l : List Pub) :
    ∀ acc : List Pub, ∀ p ∈ l, ∃ q ∈ l.foldl mergeStep acc, q.id = p.id := by
  induction l with
  | nil => intro acc p hp; cases hp
  | cons x t ih =>
    intro acc p hp
    rcases List.mem_cons.mp hp with rfl | hpt
    · by_cases h : acc.any (fun pub => pub.id == p.id)
      · obtain ⟨q, hq, hqid⟩ := List.any_eq_true.mp h
        obtain ⟨s, hs, _⟩ := mergeFold_append t (mergeStep acc p)
        refine ⟨q, ?_, by simpa using hqid⟩
        rw [List.foldl_cons, hs]
        have : q ∈ mergeStep acc p := by simp [mergeStep, h, hq]
        exact List.mem_append.mpr (Or.inl this)
      · obtain ⟨s, hs, _⟩ := mergeFold_append t (mergeStep acc p)
        refine ⟨p, ?_, rfl⟩
        rw [List.foldl_cons, hs]
        have : p ∈ mergeStep acc p := by simp [mergeStep, h]
        exact List.mem_append.mpr (Or.inl this)
    · exact ih (mergeStep acc x) p hpt

/-- Claim C1: the merge performed by updatePublicationsFromSources never
changes any field of a record already in the existing collection (the existing
collection is an unchanged prefix of the result), every appended record is an
incoming record verbatim (the appended suffix is a sublist of the incoming
sequence), and an incoming record whose id is absent from the existing
collection gets a record with its id appended to the suffix. -/
theorem updatePublications_nondestructive (ex inc : List Pub) :
    (updatePublicationsMerge ex inc).take ex.length = ex
    ∧ ((updatePublicationsMerge ex inc).drop ex.length).Sublist inc
    ∧ ∀ p ∈ inc, (∀ q ∈ ex, q.id ≠ p.id) →
        ∃ q ∈ (updatePublicationsMerge ex inc).drop ex.length, q.id = p.id := by
  obtain ⟨s, hs, hsub⟩ := mergeFold_append inc ex
  have hdrop : (updatePublicationsMerge ex inc).drop ex.length = s := by
    rw [updatePublicationsMerge, hs]; exact List.drop_left ex s
  refine ⟨?_, ?_, ?_⟩
  · rw [updatePublicationsMerge, hs]; exact List.take_left ex s
  · rw [hdrop]; exact hsub
  · intro p hp hnot
    obtain ⟨q, hq, hqid⟩ := mergeFold_id_mem inc ex p hp
    rw [updatePublicationsMerge] at hdrop
    rw [hs] at hq
    rcases List.mem_append.mp hq with hqex | hqs
    · exact absurd hqid (hnot q hqex)
    · exact ⟨q, by rw [updatePublicationsMerge, hdrop]; exact hqs, hqid⟩

/-- Witness for claim C1 at a concrete collection: existing [pubA], incoming
[pubB] with a fresh id. -/
theorem updatePublications_nondestructive_witness :
    (updatePublicationsMerge exC1 incC1).take 1 = exC1
    ∧ ∃ q ∈ (updatePublicationsMerge exC1 incC1).drop 1, q.id = pubB.id := by
  have h := updatePublications_nondestructive exC1 incC1
  exact ⟨h.1, h.2.2 pubB (by decide) (by decide)⟩

/-! ### JSON round trip: whitespace and digit lemmas -/

theorem skipJWs_append_ws (ws : List Char) (r : List Char)
    (h : ∀ c ∈ ws, isJsonWs c = true) : skipJWs (ws ++ r) = skipJWs r := by
  induction ws with
  | nil => rfl
  | cons c t ih =>
    simp only [List.cons_append, skipJWs, h c (List.mem_cons_self c t), if_true]
    exact ih (fun x hx => h x (List.mem_cons_of_mem c hx))

theorem skipJWs_not_ws {c : Char} (r : List Char) (h : isJsonWs c = false) :
    skipJWs (c :: r) = c :: r := by
  simp [skipJWs, h]

theorem indentChars_ws (lvl : Nat) : ∀ c ∈ indentChars lvl, isJsonWs c = true := by
  intro c hc
  rw [indentChars] at hc
  rw [List.eq_of_mem_replicate hc]
  rfl

theorem skipJWs_indent (lvl : Nat) (r : List Char) :
    skipJWs (indentChars lvl ++ r) = skipJWs r :=
  skipJWs_append_ws (indentChars lvl) r (indentChars_ws lvl)

theorem skipJWs_nl_indent (lvl : Nat) (r : List Char) :
    skipJWs ('\n' :: (indentChars lvl ++ r)) = skipJWs r := by
  show skipJWs (('\n' :: indentChars lvl) ++ r) = skipJWs r
  refine skipJWs_append_ws _ r ?_
  intro c hc
  rcases List.mem_cons.mp hc with rfl | hc
  · rfl
  · exact indentChars_ws lvl c hc

theorem natDigitsRev_eq_digits : ∀ f n, n ≤ f → natDigitsRev f n = Nat.digits 10 n := by
  intro f
  induction f with
  | zero =>
    intro n hn
    interval_cases n
    simp [natDigitsRev]
  | succ f ih =>
    intro n hn
    by_cases h0 : n = 0
    · subst h0; simp [natDigitsRev]
    · have hdiv : n / 10 ≤ f := by
        have hlt : n / 10 < n := Nat.div_lt_self (Nat.pos_of_ne_zero h0) (by norm_num)
        omega
      have hstep : Nat.digits 10 n = n % 10 :: Nat.digits 10 (n / 10) :=
        Nat.digits_of_two_le_of_pos (by norm_num) (Nat.pos_of_ne_zero h0)
      rw [natDigitsRev, if_neg h0, hstep, ih (n / 10) hdiv]

theorem digitChar_toNat {d : Nat} (h : d < 10) : (digitChar d).toNat = 48 + d := by
  interval_cases d <;> decide

theorem digitChar_isDigit {d : Nat} (h : d < 10) : (digitChar d).isDigit = true := by
  interval_cases d <;> decide

theorem digitChar_ne_zero_char {d : Nat} (h : d < 10) (h0 : d ≠ 0) : digitChar d ≠ '0' := by
  interval_cases d <;> simp_all <;> decide

theorem natChars_all_digits (n : Nat) : ∀ c ∈ natChars n, c.isDigit = true := by
  intro c hc
  rw [natChars] at hc
  by_cases h0 : n = 0
  · simp only [h0, if_true] at hc
    rw [List.mem_singleton] at hc
    subst hc; decide
  · simp only [h0, if_false, List.mem_map, List.mem_reverse] at hc
    obtain ⟨d, hd, rfl⟩ := hc
    rw [natDigitsRev_eq_digits n n le_rfl] at hd
    exact digitChar_isDigit (Nat.digits_lt_base (by norm_num) hd)

theorem natChars_ne_nil (n : Nat) : natChars n ≠ [] := by
  rw [natChars]
  by_cases h0 : n = 0
  · simp [h0]
  · simp only [h0, if_false, ne_eq, List.map_eq_nil_iff, List.reverse_eq_nil_iff]
    rw [natDigitsRev_eq_digits n n le_rfl]
    exact Nat.digits_ne_nil_iff_ne_zero.mpr h0

theorem natChars_cons (n : Nat) :
    ∃ c t, natChars n = c :: t ∧ c.isDigit = true ∧ (n ≠ 0 → c ≠ '0') := by
  by_cases h0 : n = 0
  · subst h0
    exact ⟨'0', [], by simp [natChars], by decide, fun h => absurd rfl h⟩
  · have hne : Nat.digits 10 n ≠ [] := Nat.digits_ne_nil_iff_ne_zero.mpr h0
    have hrne : (Nat.digits 10 n).reverse ≠ [] := by
      simpa using List.reverse_eq_nil_iff.not.mpr hne
    obtain ⟨l0, l1, hl⟩ := List.exists_cons_of_ne_nil hrne
    have hform : natChars n = digitChar l0 :: l1.map digitChar := by
      rw [natChars, if_neg h0, natDigitsRev_eq_digits n n le_rfl, hl, List.map_cons]
    have hmem : l0 ∈ Nat.digits 10 n := by
      have : l0 ∈ (Nat.digits 10 n).reverse := by rw [hl]; exact List.mem_cons_self _ _
      exact List.mem_reverse.mp this
    have hlt : l0 < 10 := Nat.digits_lt_base (by norm_num) hmem
    refine ⟨digitChar l0, l1.map digitChar, hform, digitChar_isDigit hlt, fun _ => ?_⟩
    refine digitChar_ne_zero_char hlt ?_
    have hlast : (Nat.digits 10 n).getLast hne ≠ 0 := Nat.getLast_digit_ne_zero 10 h0
    have heq : (Nat.digits 10 n).getLast hne = l0 := by
      rw [List.getLast_eq_head_reverse]
      simp [hl]
    omega

/-! ### JSON round trip: numbers -/

theorem foldr_digits_ofDigits (L : List Nat) (hL : ∀ d ∈ L, d < 10) :
    L.foldr (fun d acc => acc * 10 + ((digitChar d).toNat - 48)) 0 = Nat.ofDigits 10 L := by
  induction L with
  | nil => simp [Nat.ofDigits_nil]
  | cons d t ih =>
    have hd : d < 10 := hL d (List.mem_cons_self d t)
    have ht := ih (fun x hx => hL x (List.mem_cons_of_mem d hx))
    simp only [List.foldr_cons, ht, digitChar_toNat hd, Nat.ofDigits_cons]
    omega

theorem digitsVal_natChars (n : Nat) : digitsVal (natChars n) = n := by
  by_cases h0 : n = 0
  · subst h0; decide
  · rw [natChars, if_neg h0, natDigitsRev_eq_digits n n le_rfl, digitsVal,
      List.map_reverse, List.foldl_reverse, List.foldr_map]
    have hlt : ∀ d ∈ Nat.digits 10 n, d < 10 :=
      fun d hd => Nat.digits_lt_base (by norm_num) hd
    exact (foldr_digits_ofDigits (Nat.digits 10 n) hlt).trans (Nat.ofDigits_digits 10 n)

theorem takeDigitsRun_boundary (cs : List Char) (h : numBoundary cs = true) :
    takeDigitsRun cs = ([], cs) := by
  cases cs with
  | nil => rfl
  | cons c t =>
    simp only [numBoundary, Bool.not_eq_true', Bool.or_eq_false_iff] at h
    simp [takeDigitsRun, h.1.1.1]

theorem takeDigitsRun_run (ds : List Char) (r : List Char)
    (hds : ∀ c ∈ ds, c.isDigit = true) (hr : takeDigitsRun r = ([], r)) :
    takeDigitsRun (ds ++ r) = (ds, r) := by
  induction ds with
  | nil => simpa using hr
  | cons c t ih =>
    have hc : c.isDigit = true := hds c (List.mem_cons_self c t)
    have ht := ih (fun x hx => hds x (List.mem_cons_of_mem c hx))
    simp [takeDigitsRun, hc, ht]

theorem canonicalDigits_natChars (n : Nat) : canonicalDigits (natChars n) = true := by
  by_cases hn : n = 0
  · subst hn; decide
  · obtain ⟨c, t, hform, _, h0⟩ := natChars_cons n
    rw [hform]
    cases t with
    | nil => rfl
    | cons x xs =>
      simp only [canonicalDigits, Bool.not_eq_true']
      exact beq_eq_false_iff_ne.mpr (h0 hn)

theorem digit_ne_minus {c : Char} (h : c.isDigit = true) : c ≠ '-' := by
  intro heq
  subst heq
  exact absurd h (by decide)

theorem parseJNumber_neg_eq (L : List Char) :
    parseJNumber ('-' :: L) =
      (match takeDigitsRun L with
       | ([], _) => none
       | (d :: ds, r) =>
           if canonicalDigits (d :: ds) && numBoundary r then
             some (-(digitsVal (d :: ds) : Int), r)
           else none) := rfl

theorem parseJNumber_nonneg_eq (c0 : Char) (L : List Char) (hne : c0 ≠ '-') :
    parseJNumber (c0 :: L) =
      (match takeDigitsRun (c0 :: L) with
       | ([], _) => none
       | (d :: ds, r) =>
           if canonicalDigits (d :: ds) && numBoundary r then
             some ((digitsVal (d :: ds) : Int), r)
           else none) := by
  rw [parseJNumber.eq_def]
  split
  · rename_i rest heq
    injection heq with h1 h2
    exact absurd h1 hne
  · rfl

theorem parseJNumber_intChars (i : Int) (rest : List Char) (hr : numBoundary rest = true) :
    parseJNumber (intChars i ++ rest) = some (i, rest) := by
  have hdig := natChars_all_digits i.natAbs
  have hrun : takeDigitsRun (natChars i.natAbs ++ rest) = (natChars i.natAbs, rest) :=
    takeDigitsRun_run _ rest hdig (takeDigitsRun_boundary rest hr)
  have hcanon : canonicalDigits (natChars i.natAbs) = true := canonicalDigits_natChars _
  obtain ⟨c0, t0, hnc, hc0d, _⟩ := natChars_cons i.natAbs
  have hcanon2 : canonicalDigits (c0 :: t0) = true := hnc ▸ hcanon
  have hdv : digitsVal (c0 :: t0) = i.natAbs := by
    rw [← hnc, digitsVal_natChars]
  by_cases hi : i < 0
  · rw [intChars, if_pos hi, List.cons_append, parseJNumber_neg_eq, hrun, hnc]
    simp only [hcanon2, hr, Bool.and_self, if_true, hdv]
    have hival : -((i.natAbs : Nat) : Int) = i := by omega
    rw [hival]
  · have hstep : intChars i ++ rest = c0 :: (t0 ++ rest) := by
      rw [intChars, if_neg hi, hnc, List.cons_append]
    rw [hstep, parseJNumber_nonneg_eq c0 (t0 ++ rest) (digit_ne_minus hc0d),
      ← List.cons_append, ← hnc, hrun, hnc]
    simp only [hcanon2, hr, Bool.and_self, if_true, hdv]
    have hival : ((i.natAbs : Nat) : Int) = i := by omega
    rw [hival]

/-! ### JSON round trip: strings -/

theorem hexCharVal_hexDigitChar {d : Nat} (h : d < 16) :
    hexCharVal (hexDigitChar d) = some d := by
  interval_cases d <;> decide

theorem parseJStringBody_other (c : Char) (L : List Char)
    (hq : c ≠ '"') (hb : c ≠ '\\') (hc : 32 ≤ c.toNat) :
    parseJStringBody (c :: L) = (parseJStringBody L).map (fun p => (c :: p.1, p.2)) := by
  rw [parseJStringBody.eq_def]
  split
  · rename_i heq
    cases heq
  · rename_i rest heq
    injection heq with h1 h2
    exact absurd h1 hq
  · rename_i a b cc d rest heq
    injection heq with h1 h2
    exact absurd h1 hb
  · rename_i e rest heq
    injection heq with h1 h2
    exact absurd h1 hb
  · rename_i c2 rest heq
    injection heq with h1 h2
    subst h1
    subst h2
    rw [if_neg (by omega)]

theorem parseJStringBody_quote :
    ∀ (cs : List Char) (rest : List Char),
      parseJStringBody ((cs.map escapeChar).flatten ++ '"' :: rest) = some (cs, rest) := by
  intro cs
  induction cs with
  | nil => intro rest; rfl
  | cons c t ih =>
    intro rest
    rw [List.map_cons, List.flatten_cons, List.append_assoc]
    by_cases h1 : c = '"'
    · subst h1; simp [escapeChar, parseJStringBody, jsonUnescape, ih]
    by_cases h2 : c = '\\'
    · subst h2; simp [escapeChar, parseJStringBody, jsonUnescape, ih]
    by_cases h3 : c = '\x08'
    · subst h3; simp [escapeChar, parseJStringBody, jsonUnescape, ih]
    by_cases h4 : c = '\x0c'
    · subst h4; simp [escapeChar, parseJStringBody, jsonUnescape, ih]
    by_cases h5 : c = '\n'
    · subst h5; simp [escapeChar, parseJStringBody, jsonUnescape, ih]
    by_cases h6 : c = '\r'
    · subst h6; simp [escapeChar, parseJStringBody, jsonUnescape, ih]
    by_cases h7 : c = '\t'
    · subst h7; simp [escapeChar, parseJStringBody, jsonUnescape, ih]
    by_cases h8 : c.toNat < 32
    · have hform : escapeChar c =
          ['\\', 'u', '0', '0', hexDigitChar (c.toNat / 16), hexDigitChar (c.toNat % 16)] := by
        rw [escapeChar, if_neg (by simpa using h1), if_neg (by simpa using h2),
          if_neg (by simpa using h3), if_neg (by simpa using h4), if_neg (by simpa using h5),
          if_neg (by simpa using h6), if_neg (by simpa using h7), if_pos h8]
      rw [hform]
      simp only [List.cons_append, List.nil_append]
      have hdiv : c.toNat / 16 < 16 := by omega
      have hmod : c.toNat % 16 < 16 := by omega
      rw [parseJStringBody, hexCharVal_hexDigitChar hdiv, hexCharVal_hexDigitChar hmod]
      have hzero : hexCharVal '0' = some 0 := by decide
      rw [hzero]
      simp only
      have hn : ((0 * 16 + 0) * 16 + c.toNat / 16) * 16 + c.toNat % 16 = c.toNat := by omega
      rw [hn, if_pos (Or.inl (by omega) : Nat.isValidChar c.toNat), Char.ofNat_toNat, ih]
      rfl
    · have hform : escapeChar c = [c] := by
        rw [escapeChar, if_neg (by simpa using h1), if_neg (by simpa using h2),
          if_neg (by simpa using h3), if_neg (by simpa using h4), if_neg (by simpa using h5),
          if_neg (by simpa using h6), if_neg (by simpa using h7), if_neg h8]
      rw [hform, List.singleton_append,
        parseJStringBody_other c _ h1 h2 (by omega), ih]
      rfl

/-! ### JSON round trip: parser dispatch -/

theorem parseJValue_eq_null (f : Nat) (r : List Char) :
    parseJValue (f + 1) ('n' :: 'u' :: 'l' :: 'l' :: r) = some (.null, r) := rfl

theorem parseJValue_eq_true (f : Nat) (r : List Char) :
    parseJValue (f + 1) ('t' :: 'r' :: 'u' :: 'e' :: r) = some (.bool true, r) := rfl

theorem parseJValue_eq_false (f : Nat) (r : List Char) :
    parseJValue (f + 1) ('f' :: 'a' :: 'l' :: 's' :: 'e' :: r) = some (.bool false, r) := rfl

theorem parseJValue_eq_str (f : Nat) (r : List Char) :
    parseJValue (f + 1) ('"' :: r)
      = (parseJStringBody r).map (fun p => (.str (String.mk p.1), p.2)) := rfl

theorem parseJValue_eq_arr (f : Nat) (r : List Char) :
    parseJValue (f + 1) ('[' :: r)
      = (match skipJWs r with
         | ']' :: r2 => some (.arr [], r2)
         | _ => (parseJItems f r).map (fun p => (.arr p.1, p.2))) := rfl

theorem parseJValue_eq_obj (f : Nat) (r : List Char) :
    parseJValue (f + 1) ('\x7b' :: r)
      = (match skipJWs r with
         | '\x7d' :: r2 => some (.obj [], r2)
         | _ => (parseJMembers f r).map (fun p => (.obj (objFromPairs p.1), p.2))) := rfl

theorem digit_ne_chars {c : Char} (h : c.isDigit = true) :
    c ≠ 'n' ∧ c ≠ 't' ∧ c ≠ 'f' ∧ c ≠ '"' ∧ c ≠ '[' ∧ c ≠ '\x7b'
      ∧ c ≠ ']' ∧ c ≠ '\x7d' ∧ c ≠ ',' ∧ c ≠ ':' := by
  refine ⟨?_, ?_, ?_, ?_, ?_, ?_, ?_, ?_, ?_, ?_⟩ <;>
    (intro heq; subst heq; exact absurd h (by decide))

theorem digit_not_ws {c : Char} (h : c.isDigit = true) : isJsonWs c = false := by
  rw [isJsonWs]
  have h1 : c ≠ ' ' := by intro heq; subst heq; exact absurd h (by decide)
  have h2 : c ≠ '\n' := by intro heq; subst heq; exact absurd h (by decide)
  have h3 : c ≠ '\r' := by intro heq; subst heq; exact absurd h (by decide)
  have h4 : c ≠ '\t' := by intro heq; subst heq; exact absurd h (by decide)
  simp [h1, h2, h3, h4]

theorem parseJValue_eq_num (f : Nat) (c0 : Char) (L : List Char)
    (hws : isJsonWs c0 = false) (hn : c0 ≠ 'n') (ht : c0 ≠ 't') (hf : c0 ≠ 'f')
    (hq : c0 ≠ '"') (hlb : c0 ≠ '[') (hob : c0 ≠ '\x7b')
    (hng : (c0 == '-' || c0.isDigit) = true) :
    parseJValue (f + 1) (c0 :: L)
      = (parseJNumber (c0 :: L)).map (fun p => (.num p.1, p.2)) := by
  have hskip : skipJWs (c0 :: L) = c0 :: L := skipJWs_not_ws L hws
  rw [parseJValue.eq_2, hskip]
  split
  · rename_i heq; injection heq with h1 _; exact absurd h1 hn
  · rename_i heq; injection heq with h1 _; exact absurd h1 ht
  · rename_i heq; injection heq with h1 _; exact absurd h1 hf
  · rename_i heq; injection heq with h1 _; exact absurd h1 hq
  · rename_i heq; injection heq with h1 _; exact absurd h1 hlb
  · rename_i heq; injection heq with h1 _; exact absurd h1 hob
  · rename_i c2 r2 heq
    injection heq with h1 h2
    subst h1; subst h2
    rw [if_pos hng]
  · rename_i heq; cases heq

/-- Parsing is unchanged by a leading run of whitespace. -/
theorem parseJValue_shed_ws (f : Nat) (ws X : List Char)
    (h : ∀ c ∈ ws, isJsonWs c = true) :
    parseJValue f (ws ++ X) = parseJValue f X := by
  cases f with
  | zero => rfl
  | succ f => rw [parseJValue.eq_2, skipJWs_append_ws ws X h, ← parseJValue.eq_2]

theorem parseJItems_shed_ws (f : Nat) (ws X : List Char)
    (h : ∀ c ∈ ws, isJsonWs c = true) :
    parseJItems f (ws ++ X) = parseJItems f X := by
  cases f with
  | zero => rfl
  | succ f =>
    rw [parseJItems.eq_2, parseJValue_shed_ws f ws X h, ← parseJItems.eq_2]

theorem parseJMembers_shed_ws (f : Nat) (ws X : List Char)
    (h : ∀ c ∈ ws, isJsonWs c = true) :
    parseJMembers f (ws ++ X) = parseJMembers f X := by
  cases f with
  | zero => rfl
  | succ f => rw [parseJMembers.eq_2, skipJWs_append_ws ws X h, ← parseJMembers.eq_2]

theorem nl_indent_ws (lvl : Nat) : ∀ c ∈ '\n' :: indentChars lvl, isJsonWs c = true := by
  intro c hc
  rcases List.mem_cons.mp hc with rfl | hc
  · rfl
  · exact indentChars_ws lvl c hc

/-- Every printed JSON value starts with a visible character that is not a
closing bracket, a closing brace, a comma or a colon. -/
theorem printJson_head (f lvl : Nat) (v : Json) :
    ∃ c t, printJson (f + 1) lvl v = c :: t ∧ isJsonWs c = false
      ∧ c ≠ ']' ∧ c ≠ '\x7d' ∧ c ≠ ',' ∧ c ≠ ':' := by
  cases v with
  | null => exact ⟨'n', _, rfl, by decide, by decide, by decide, by decide, by decide⟩
  | bool b =>
    cases b with
    | true => exact ⟨'t', _, rfl, by decide, by decide, by decide, by decide, by decide⟩
    | false => exact ⟨'f', _, rfl, by decide, by decide, by decide, by decide, by decide⟩
  | str s => exact ⟨'"', _, rfl, by decide, by decide, by decide, by decide, by decide⟩
  | num i =>
    by_cases hi : i < 0
    · refine ⟨'-', natChars i.natAbs, ?_, by decide, by decide, by decide, by decide, by decide⟩
      show intChars i = _
      rw [intChars, if_pos hi]
    · obtain ⟨c0, t0, hnc, hc0d, _⟩ := natChars_cons i.natAbs
      obtain ⟨_, _, _, _, _, _, hrb, hrc, hcm, hcl⟩ := digit_ne_chars hc0d
      refine ⟨c0, t0, ?_, digit_not_ws hc0d, hrb, hrc, hcm, hcl⟩
      show intChars i = _
      rw [intChars, if_neg hi, hnc]
  | arr xs =>
    cases xs with
    | nil => exact ⟨'[', _, rfl, by decide, by decide, by decide, by decide, by decide⟩
    | cons x t => exact ⟨'[', _, rfl, by decide, by decide, by decide, by decide, by decide⟩
  | obj ms =>
    cases ms with
    | nil => exact ⟨'\x7b', _, rfl, by decide, by decide, by decide, by decide, by decide⟩
    | cons m t => exact ⟨'\x7b', _, rfl, by decide, by decide, by decide, by decide, by decide⟩

/-- Inserting a fresh key appends. -/
theorem insertPair_fresh (acc : List (String × Json)) (kv : String × Json)
    (h : kv.1 ∉ acc.map Prod.fst) : insertPair acc kv = acc ++ [kv] := by
  induction acc with
  | nil => rfl
  | cons a t ih =>
    obtain ⟨k0, v0⟩ := a
    simp only [List.map_cons, List.mem_cons] at h
    push_neg at h
    rw [insertPair, if_neg (by simpa using fun heq => h.1 heq.symm), List.cons_append,
      ih h.2]

theorem foldl_insertPair_nodup :
    ∀ (ms acc : List (String × Json)), ((acc ++ ms).map Prod.fst).Nodup →
      ms.foldl insertPair acc = acc ++ ms := by
  intro ms
  induction ms with
  | nil => intro acc _; simp
  | cons m t ih =>
    intro acc hnd
    have hfresh : m.1 ∉ acc.map Prod.fst := by
      intro hmem
      rw [List.map_append] at hnd
      have hdisj := (List.nodup_append.mp hnd).2.2
      exact hdisj hmem (by simp)
    rw [List.foldl_cons, insertPair_fresh acc m hfresh, ih (acc ++ [m])
      (by simpa using hnd)]
    simp

/-- Parsed members of a well-formed object rebuild it unchanged. -/
theorem objFromPairs_nodup (ms : List (String × Json))
    (h : (ms.map Prod.fst).Nodup) : objFromPairs ms = ms := by
  rw [objFromPairs, foldl_insertPair_nodup ms [] (by simpa using h)]
  simp

theorem parseJMembers_eq_quote (f : Nat) (r : List Char) :
    parseJMembers (f + 1) ('"' :: r)
      = (match parseJStringBody r with
         | none => none
         | some (k, r1) =>
           match skipJWs r1 with
           | ':' :: r2 =>
             (match parseJValue f r2 with
              | none => none
              | some (v, r3) =>
                match skipJWs r3 with
                | ',' :: r4 =>
                    (parseJMembers f r4).map (fun p => ((String.mk k, v) :: p.1, p.2))
                | '\x7d' :: r4 => some ([(String.mk k, v)], r4)
                | _ => none)
           | _ => none
         ) := rfl

/-! ### JSON round trip: printed shapes -/

theorem printItems_shape (pf L : Nat) (x : Json) (t : List Json)
    (h : jsizeL (x :: t) ≤ pf) :
    ∃ c cs, printItems pf L (x :: t) = indentChars L ++ (c :: cs)
      ∧ isJsonWs c = false ∧ c ≠ ']' ∧ c ≠ '\x7d' := by
  cases pf with
  | zero => simp only [jsizeL, jsize] at h; omega
  | succ pf2 =>
    cases pf2 with
    | zero =>
      have h1 : 1 ≤ jsize x := by
        cases x <;> simp [jsize]
      have h2 : 1 ≤ jsizeL t := by
        cases t with
        | nil => simp [jsizeL]
        | cons y ys =>
          have hy : 1 ≤ jsize y := by cases y <;> simp [jsize]
          simp only [jsizeL]
          omega
      simp only [jsizeL] at h
      omega
    | succ pf3 =>
      obtain ⟨c, cs, hpr, hws, hrb, hrc, _, _⟩ := printJson_head pf3 L x
      cases t with
      | nil =>
        refine ⟨c, cs ++ [], ?_, hws, hrb, hrc⟩
        have hdef : printItems (pf3 + 1 + 1) L [x]
            = indentChars L ++ (printJson (pf3 + 1) L x ++ []) := by
          simp only [printItems, List.append_assoc]
        rw [hdef, hpr]
        simp
      | cons y ys =>
        refine ⟨c, cs ++ (',' :: '\n' :: printItems (pf3 + 1) L (y :: ys)), ?_, hws, hrb, hrc⟩
        have hdef : printItems (pf3 + 1 + 1) L (x :: y :: ys)
            = indentChars L ++ (printJson (pf3 + 1) L x
                ++ (',' :: '\n' :: printItems (pf3 + 1) L (y :: ys))) := by
          simp only [printItems, List.append_assoc]
        rw [hdef, hpr]
        simp

theorem printMembers_shape (pf L : Nat) (m : String × Json) (ms : List (String × Json))
    (h : jsizeP (m :: ms) ≤ pf) :
    ∃ cs, printMembers pf L (m :: ms) = indentChars L ++ ('"' :: cs) := by
  cases pf with
  | zero => simp only [jsizeP, jsize] at h; omega
  | succ pf2 =>
    obtain ⟨k, v⟩ := m
    cases ms with
    | nil =>
      refine ⟨((k.data.map escapeChar).flatten ++ ['"'])
        ++ ':' :: ' ' :: (printJson pf2 L v ++ []), ?_⟩
      have hdef : printMembers (pf2 + 1) L [(k, v)]
          = indentChars L ++ (quoteChars k.data
              ++ ':' :: ' ' :: (printJson pf2 L v ++ [])) := by
        simp only [printMembers, List.append_assoc, List.cons_append]
      rw [hdef, quoteChars]
      simp
    | cons m2 ms2 =>
      refine ⟨((k.data.map escapeChar).flatten ++ ['"'])
        ++ ':' :: ' ' :: (printJson pf2 L v
          ++ (',' :: '\n' :: printMembers pf2 L (m2 :: ms2))), ?_⟩
      have hdef : printMembers (pf2 + 1) L ((k, v) :: m2 :: ms2)
          = indentChars L ++ (quoteChars k.data
              ++ ':' :: ' ' :: (printJson pf2 L v
                ++ (',' :: '\n' :: printMembers pf2 L (m2 :: ms2)))) := by
        simp only [printMembers, List.append_assoc, List.cons_append]
      rw [hdef, quoteChars]
      simp

/-! ### JSON round trip: the main induction -/

mutual

theorem rtVal : ∀ (v : Json) (pf lvl f : Nat) (rest : List Char),
    WFJson v → jsize v ≤ pf → (printJson pf lvl v).length < f → numBoundary rest = true →
    parseJValue f (printJson pf lvl v ++ rest) = some (v, rest)
  | .null, pf, lvl, f, rest, _, hpf, hf, _ => by
    cases pf with
    | zero => simp [jsize] at hpf
    | succ pf =>
      have hpr : printJson (pf + 1) lvl .null = ['n', 'u', 'l', 'l'] := by
        simp only [printJson, nullChars]
      rw [hpr] at hf ⊢
      cases f with
      | zero => simp at hf
      | succ f => exact parseJValue_eq_null f rest
  | .bool b, pf, lvl, f, rest, _, hpf, hf, _ => by
    cases pf with
    | zero => simp [jsize] at hpf
    | succ pf =>
      cases b with
      | true =>
        have hpr : printJson (pf + 1) lvl (.bool true) = ['t', 'r', 'u', 'e'] := by
          simp only [printJson, trueChars]
        rw [hpr] at hf ⊢
        cases f with
        | zero => simp at hf
        | succ f => exact parseJValue_eq_true f rest
      | false =>
        have hpr : printJson (pf + 1) lvl (.bool false) = ['f', 'a', 'l', 's', 'e'] := by
          simp only [printJson, falseChars]
        rw [hpr] at hf ⊢
        cases f with
        | zero => simp at hf
        | succ f => exact parseJValue_eq_false f rest
  | .num i, pf, lvl, f, rest, _, hpf, hf, hrb => by
    cases pf with
    | zero => simp [jsize] at hpf
    | succ pf =>
      have hpr : printJson (pf + 1) lvl (.num i) = intChars i := by
        simp only [printJson]
      rw [hpr] at hf ⊢
      cases f with
      | zero => simp at hf
      | succ f =>
        by_cases hi : i < 0
        · have hic : intChars i = '-' :: natChars i.natAbs := by rw [intChars, if_pos hi]
          rw [hic, List.cons_append,
            parseJValue_eq_num f '-' _ (by decide) (by decide) (by decide) (by decide)
              (by decide) (by decide) (by decide) (by decide),
            ← List.cons_append, ← hic, parseJNumber_intChars i rest hrb]
          rfl
        · obtain ⟨c0, t0, hnc, hc0d, _⟩ := natChars_cons i.natAbs
          have hic : intChars i = c0 :: t0 := by rw [intChars, if_neg hi, hnc]
          obtain ⟨hn, ht, hf2, hq, hlb, hob, _, _, _, _⟩ := digit_ne_chars hc0d
          rw [hic, List.cons_append,
            parseJValue_eq_num f c0 _ (digit_not_ws hc0d) hn ht hf2 hq hlb hob
              (by rw [hc0d]; simp),
            ← List.cons_append, ← hic, parseJNumber_intChars i rest hrb]
          rfl
  | .str s, pf, lvl, f, rest, _, hpf, hf, _ => by
    cases pf with
    | zero => simp [jsize] at hpf
    | succ pf =>
      have hpr : printJson (pf + 1) lvl (.str s) = quoteChars s.data := by
        simp only [printJson]
      rw [hpr] at hf ⊢
      cases f with
      | zero => simp [quoteChars] at hf
      | succ f =>
        have hinput : quoteChars s.data ++ rest
            = '"' :: ((s.data.map escapeChar).flatten ++ '"' :: rest) := by
          rw [quoteChars]
          simp [List.append_assoc]
        rw [hinput, parseJValue_eq_str, parseJStringBody_quote s.data rest]
        rfl
  | .arr [], pf, lvl, f, rest, _, hpf, hf, _ => by
    cases pf with
    | zero => simp [jsize] at hpf
    | succ pf =>
      have hpr : printJson (pf + 1) lvl (.arr []) = ['[', ']'] := by
        simp only [printJson]
      rw [hpr] at hf ⊢
      cases f with
      | zero => simp at hf
      | succ f =>
        have hinput : (['[', ']'] : List Char) ++ rest = '[' :: ']' :: rest := rfl
        rw [hinput, parseJValue_eq_arr]
        rfl
  | .arr (x :: t), pf, lvl, f, rest, hwf, hpf, hf, _ => by
    cases pf with
    | zero => simp [jsize] at hpf
    | succ pf =>
      have hwall : ∀ y ∈ x :: t, WFJson y := by
        cases hwf with
        | arr _ h => exact h
      have hszL : jsizeL (x :: t) ≤ pf := by
        simp only [jsize] at hpf
        omega
      have hpr : printJson (pf + 1) lvl (.arr (x :: t))
          = '[' :: '\n' :: (printItems pf (lvl + 1) (x :: t)
              ++ '\n' :: (indentChars lvl ++ [']'])) := by
        simp only [printJson]
      rw [hpr] at hf ⊢
      cases f with
      | zero => simp at hf
      | succ f =>
        have hinput : ('[' :: '\n' :: (printItems pf (lvl + 1) (x :: t)
              ++ '\n' :: (indentChars lvl ++ [']']))) ++ rest
            = '[' :: ('\n' :: (printItems pf (lvl + 1) (x :: t)
              ++ '\n' :: (indentChars lvl ++ ']' :: rest))) := by
          simp [List.append_assoc]
        rw [hinput, parseJValue_eq_arr]
        obtain ⟨c, cs, hish, hws, hrb, _⟩ := printItems_shape pf (lvl + 1) x t hszL
        have hskipr : skipJWs ('\n' :: (printItems pf (lvl + 1) (x :: t)
              ++ '\n' :: (indentChars lvl ++ ']' :: rest)))
            = c :: (cs ++ '\n' :: (indentChars lvl ++ ']' :: rest)) := by
          rw [hish]
          show skipJWs ('\n' :: ((indentChars (lvl + 1) ++ (c :: cs))
            ++ '\n' :: (indentChars lvl ++ ']' :: rest))) = _
          rw [List.append_assoc, ← List.cons_append, skipJWs_append_ws _ _
            (nl_indent_ws (lvl + 1)), List.cons_append, skipJWs_not_ws _ hws]
        rw [hskipr]
        have hitems : parseJItems f ('\n' :: (printItems pf (lvl + 1) (x :: t)
              ++ '\n' :: (indentChars lvl ++ ']' :: rest)))
            = some (x :: t, rest) := by
          have hshed := parseJItems_shed_ws f ['\n']
            (printItems pf (lvl + 1) (x :: t) ++ '\n' :: (indentChars lvl ++ ']' :: rest))
            (by intro cc hcc; simp at hcc; subst hcc; rfl)
          rw [show ('\n' :: (printItems pf (lvl + 1) (x :: t)
              ++ '\n' :: (indentChars lvl ++ ']' :: rest)))
            = ['\n'] ++ (printItems pf (lvl + 1) (x :: t)
              ++ '\n' :: (indentChars lvl ++ ']' :: rest)) from rfl, hshed]
          refine rtItems x t pf (lvl + 1) lvl f rest hwall hszL ?_
          simp only [List.length_cons, List.length_append] at hf
          omega
        split
        · rename_i r2 heq
          injection heq with h1 h2
          exact absurd h1 hrb
        · rw [hitems]
          rfl
  | .obj [], pf, lvl, f, rest, _, hpf, hf, _ => by
    cases pf with
    | zero => simp [jsize] at hpf
    | succ pf =>
      have hpr : printJson (pf + 1) lvl (.obj []) = ['\x7b', '\x7d'] := by
        simp only [printJson]
      rw [hpr] at hf ⊢
      cases f with
      | zero => simp at hf
      | succ f =>
        have hinput : (['\x7b', '\x7d'] : List Char) ++ rest = '\x7b' :: '\x7d' :: rest := rfl
        rw [hinput, parseJValue_eq_obj]
        rfl
  | .obj (m :: t), pf, lvl, f, rest, hwf, hpf, hf, _ => by
    cases pf with
    | zero => simp [jsize] at hpf
    | succ pf =>
      have hwall : ∀ y ∈ m :: t, WFJson y.2 := by
        cases hwf with
        | obj _ _ h => exact h
      have hnd : ((m :: t).map Prod.fst).Nodup := by
        cases hwf with
        | obj _ hn _ => exact hn
      have hszP : jsizeP (m :: t) ≤ pf := by
        simp only [jsize] at hpf
        omega
      have hpr : printJson (pf + 1) lvl (.obj (m :: t))
          = '\x7b' :: '\n' :: (printMembers pf (lvl + 1) (m :: t)
              ++ '\n' :: (indentChars lvl ++ ['\x7d'])) := by
        simp only [printJson]
      rw [hpr] at hf ⊢
      cases f with
      | zero => simp at hf
      | succ f =>
        have hinput : ('\x7b' :: '\n' :: (printMembers pf (lvl + 1) (m :: t)
              ++ '\n' :: (indentChars lvl ++ ['\x7d']))) ++ rest
            = '\x7b' :: ('\n' :: (printMembers pf (lvl + 1) (m :: t)
              ++ '\n' :: (indentChars lvl ++ '\x7d' :: rest))) := by
          simp [List.append_assoc]
        rw [hinput, parseJValue_eq_obj]
        obtain ⟨cs, hish⟩ := printMembers_shape pf (lvl + 1) m t hszP
        have hskipr : skipJWs ('\n' :: (printMembers pf (lvl + 1) (m :: t)
              ++ '\n' :: (indentChars lvl ++ '\x7d' :: rest)))
            = '"' :: (cs ++ '\n' :: (indentChars lvl ++ '\x7d' :: rest)) := by
          rw [hish]
          show skipJWs ('\n' :: ((indentChars (lvl + 1) ++ ('"' :: cs))
            ++ '\n' :: (indentChars lvl ++ '\x7d' :: rest))) = _
          rw [List.append_assoc, ← List.cons_append, skipJWs_append_ws _ _
            (nl_indent_ws (lvl + 1)), List.cons_append, skipJWs_not_ws _ (by decide)]
        rw [hskipr]
        have hmembers : parseJMembers f ('\n' :: (printMembers pf (lvl + 1) (m :: t)
              ++ '\n' :: (indentChars lvl ++ '\x7d' :: rest)))
            = some (m :: t, rest) := by
          have hshed := parseJMembers_shed_ws f ['\n']
            (printMembers pf (lvl + 1) (m :: t) ++ '\n' :: (indentChars lvl ++ '\x7d' :: rest))
            (by intro cc hcc; simp at hcc; subst hcc; rfl)
          rw [show ('\n' :: (printMembers pf (lvl + 1) (m :: t)
              ++ '\n' :: (indentChars lvl ++ '\x7d' :: rest)))
            = ['\n'] ++ (printMembers pf (lvl + 1) (m :: t)
              ++ '\n' :: (indentChars lvl ++ '\x7d' :: rest)) from rfl, hshed]
          refine rtMembers m t pf (lvl + 1) lvl f rest hwall hszP ?_
          simp only [List.length_cons, List.length_append] at hf
          omega
        split
        · rename_i r2 heq
          injection heq with h1 h2
          exact absurd h1 (by decide)
        · rw [hmembers]
          show some (Json.obj (objFromPairs (m :: t)), rest) = some (Json.obj (m :: t), rest)
          rw [objFromPairs_nodup (m :: t) hnd]
  termination_by v _ _ _ _ _ _ _ _ => sizeOf v

theorem rtItems : ∀ (x : Json) (t : List Json) (pf L cl f : Nat) (rest : List Char),
    (∀ y ∈ x :: t, WFJson y) → jsizeL (x :: t) ≤ pf →
    (printItems pf L (x :: t)).length + 1 < f →
    parseJItems f (printItems pf L (x :: t) ++ '\n' :: (indentChars cl ++ ']' :: rest))
      = some (x :: t, rest)
  | x, [], pf, L, cl, f, rest, hwf, hsz, hf => by
    cases pf with
    | zero => simp only [jsizeL, jsize] at hsz; omega
    | succ pf =>
      have hpr : printItems (pf + 1) L [x] = indentChars L ++ (printJson pf L x ++ []) := by
        simp only [printItems, List.append_assoc]
      rw [hpr] at hf ⊢
      cases f with
      | zero => simp at hf
      | succ f =>
        rw [parseJItems.eq_2]
        have hin : (indentChars L ++ (printJson pf L x ++ [])) ++ '\n'
              :: (indentChars cl ++ ']' :: rest)
            = indentChars L ++ (printJson pf L x
              ++ '\n' :: (indentChars cl ++ ']' :: rest)) := by
          simp [List.append_assoc]
        rw [hin, parseJValue_shed_ws f (indentChars L) _ (indentChars_ws L)]
        have hx : parseJValue f (printJson pf L x ++ '\n' :: (indentChars cl ++ ']' :: rest))
            = some (x, '\n' :: (indentChars cl ++ ']' :: rest)) := by
          refine rtVal x pf L f _ (hwf x (List.mem_cons_self x [])) ?_ ?_ rfl
          · simp only [jsizeL] at hsz; omega
          · simp only [List.length_append] at hf; omega
        rw [hx]
        show (match skipJWs ('\n' :: (indentChars cl ++ ']' :: rest)) with
          | ',' :: r2 => (parseJItems f r2).map (fun p => (x :: p.1, p.2))
          | ']' :: r2 => some ([x], r2)
          | _ => none) = some ([x], rest)
        rw [skipJWs_nl_indent cl (']' :: rest), skipJWs_not_ws rest (by decide)]
        rfl
  | x, y :: ys, pf, L, cl, f, rest, hwf, hsz, hf => by
    cases pf with
    | zero => simp only [jsizeL, jsize] at hsz; omega
    | succ pf =>
      have hpr : printItems (pf + 1) L (x :: y :: ys)
          = indentChars L ++ (printJson pf L x
              ++ (',' :: '\n' :: printItems pf L (y :: ys))) := by
        simp only [printItems, List.append_assoc]
      rw [hpr] at hf ⊢
      cases f with
      | zero => simp at hf
      | succ f =>
        rw [parseJItems.eq_2]
        have hin : (indentChars L ++ (printJson pf L x
              ++ (',' :: '\n' :: printItems pf L (y :: ys)))) ++ '\n'
              :: (indentChars cl ++ ']' :: rest)
            = indentChars L ++ (printJson pf L x
              ++ (',' :: '\n' :: (printItems pf L (y :: ys)
                ++ '\n' :: (indentChars cl ++ ']' :: rest)))) := by
          simp [List.append_assoc]
        rw [hin, parseJValue_shed_ws f (indentChars L) _ (indentChars_ws L)]
        have hx : parseJValue f (printJson pf L x
              ++ (',' :: '\n' :: (printItems pf L (y :: ys)
                ++ '\n' :: (indentChars cl ++ ']' :: rest))))
            = some (x, ',' :: '\n' :: (printItems pf L (y :: ys)
                ++ '\n' :: (indentChars cl ++ ']' :: rest))) := by
          refine rtVal x pf L f _ (hwf x (List.mem_cons_self x _)) ?_ ?_ rfl
          · simp only [jsizeL] at hsz; omega
          · simp only [List.length_append] at hf; omega
        rw [hx]
        show (match skipJWs (',' :: '\n' :: (printItems pf L (y :: ys)
              ++ '\n' :: (indentChars cl ++ ']' :: rest))) with
          | ',' :: r2 => (parseJItems f r2).map (fun p => (x :: p.1, p.2))
          | ']' :: r2 => some ([x], r2)
          | _ => none) = some (x :: y :: ys, rest)
        rw [skipJWs_not_ws _ (by decide)]
        have hrec : parseJItems f ('\n' :: (printItems pf L (y :: ys)
              ++ '\n' :: (indentChars cl ++ ']' :: rest)))
            = some (y :: ys, rest) := by
          have hshed := parseJItems_shed_ws f ['\n']
            (printItems pf L (y :: ys) ++ '\n' :: (indentChars cl ++ ']' :: rest))
            (by intro cc hcc; simp at hcc; subst hcc; rfl)
          rw [show ('\n' :: (printItems pf L (y :: ys)
              ++ '\n' :: (indentChars cl ++ ']' :: rest)))
            = ['\n'] ++ (printItems pf L (y :: ys)
              ++ '\n' :: (indentChars cl ++ ']' :: rest)) from rfl, hshed]
          refine rtItems y ys pf L cl f rest
            (fun z hz => hwf z (List.mem_cons_of_mem x hz)) ?_ ?_
          · simp only [jsizeL] at hsz ⊢; omega
          · simp only [List.length_append, List.length_cons] at hf; omega
        show (parseJItems f ('\n' :: (printItems pf L (y :: ys)
              ++ '\n' :: (indentChars cl ++ ']' :: rest)))).map (fun p => (x :: p.1, p.2))
            = some (x :: y :: ys, rest)
        rw [hrec]
        rfl
  termination_by x t _ _ _ _ _ _ _ _ => sizeOf x + sizeOf t

theorem rtMembers : ∀ (m : String × Json) (t : List (String × Json))
    (pf L cl f : Nat) (rest : List Char),
    (∀ y ∈ m :: t, WFJson y.2) → jsizeP (m :: t) ≤ pf →
    (printMembers pf L (m :: t)).length + 1 < f →
    parseJMembers f (printMembers pf L (m :: t) ++ '\n' :: (indentChars cl ++ '\x7d' :: rest))
      = some (m :: t, rest)
  | (k, v), [], pf, L, cl, f, rest, hwf, hsz, hf => by
    cases pf with
    | zero => simp only [jsizeP, jsize] at hsz; omega
    | succ pf =>
      have hpr : printMembers (pf + 1) L [(k, v)]
          = indentChars L ++ (quoteChars k.data
              ++ ':' :: ' ' :: (printJson pf L v ++ [])) := by
        simp only [printMembers, List.append_assoc, List.cons_append]
      rw [hpr] at hf ⊢
      cases f with
      | zero => simp at hf
      | succ f =>
        have hin : (indentChars L ++ (quoteChars k.data
              ++ ':' :: ' ' :: (printJson pf L v ++ []))) ++ '\n'
              :: (indentChars cl ++ '\x7d' :: rest)
            = indentChars L ++ ('"' :: ((k.data.map escapeChar).flatten
              ++ '"' :: (':' :: ' ' :: (printJson pf L v
                ++ '\n' :: (indentChars cl ++ '\x7d' :: rest))))) := by
          rw [quoteChars]
          simp [List.append_assoc]
        rw [hin, parseJMembers_shed_ws _ (indentChars L) _ (indentChars_ws L),
          parseJMembers_eq_quote, parseJStringBody_quote k.data]
        show (match skipJWs (':' :: ' ' :: (printJson pf L v
              ++ '\n' :: (indentChars cl ++ '\x7d' :: rest))) with
          | ':' :: r2 =>
            (match parseJValue f r2 with
             | none => none
             | some (v2, r3) =>
               match skipJWs r3 with
               | ',' :: r4 =>
                   (parseJMembers f r4).map
                     (fun p => ((String.mk k.data, v2) :: p.1, p.2))
               | '\x7d' :: r4 => some ([(String.mk k.data, v2)], r4)
               | _ => none)
          | _ => none) = some ([(k, v)], rest)
        rw [skipJWs_not_ws _ (by decide)]
        have hv : parseJValue f (' ' :: (printJson pf L v
              ++ '\n' :: (indentChars cl ++ '\x7d' :: rest)))
            = some (v, '\n' :: (indentChars cl ++ '\x7d' :: rest)) := by
          rw [show (' ' :: (printJson pf L v
              ++ '\n' :: (indentChars cl ++ '\x7d' :: rest)))
            = [' '] ++ (printJson pf L v ++ '\n' :: (indentChars cl ++ '\x7d' :: rest))
            from rfl, parseJValue_shed_ws f [' '] _ (by intro cc hcc; simp at hcc; subst hcc; rfl)]
          refine rtVal v pf L f _ (hwf (k, v) (List.mem_cons_self _ _)) ?_ ?_ rfl
          · simp only [jsizeP] at hsz; omega
          · simp only [List.length_append, List.length_cons, quoteChars] at hf; omega
        show (match parseJValue f (' ' :: (printJson pf L v
              ++ '\n' :: (indentChars cl ++ '\x7d' :: rest))) with
          | none => none
          | some (v2, r3) =>
            match skipJWs r3 with
            | ',' :: r4 =>
                (parseJMembers f r4).map
                  (fun p => ((String.mk k.data, v2) :: p.1, p.2))
            | '\x7d' :: r4 => some ([(String.mk k.data, v2)], r4)
            | _ => none) = some ([(k, v)], rest)
        rw [hv]
        show (match skipJWs ('\n' :: (indentChars cl ++ '\x7d' :: rest)) with
          | ',' :: r4 =>
              (parseJMembers f r4).map
                (fun p => ((String.mk k.data, v) :: p.1, p.2))
          | '\x7d' :: r4 => some ([(String.mk k.data, v)], r4)
          | _ => none) = some ([(k, v)], rest)
        rw [skipJWs_nl_indent cl ('\x7d' :: rest), skipJWs_not_ws rest (by decide)]
        rfl
  | (k, v), m2 :: t2, pf, L, cl, f, rest, hwf, hsz, hf => by
    cases pf with
    | zero => simp only [jsizeP, jsize] at hsz; omega
    | succ pf =>
      have hpr : printMembers (pf + 1) L ((k, v) :: m2 :: t2)
          = indentChars L ++ (quoteChars k.data
              ++ ':' :: ' ' :: (printJson pf L v
                ++ (',' :: '\n' :: printMembers pf L (m2 :: t2)))) := by
        simp only [printMembers, List.append_assoc, List.cons_append]
      rw [hpr] at hf ⊢
      cases f with
      | zero => simp at hf
      | succ f =>
        have hin : (indentChars L ++ (quoteChars k.data
              ++ ':' :: ' ' :: (printJson pf L v
                ++ (',' :: '\n' :: printMembers pf L (m2 :: t2))))) ++ '\n'
              :: (indentChars cl ++ '\x7d' :: rest)
            = indentChars L ++ ('"' :: ((k.data.map escapeChar).flatten
              ++ '"' :: (':' :: ' ' :: (printJson pf L v
                ++ (',' :: '\n' :: (printMembers pf L (m2 :: t2)
                  ++ '\n' :: (indentChars cl ++ '\x7d' :: rest))))))) := by
          rw [quoteChars]
          simp [List.append_assoc]
        rw [hin, parseJMembers_shed_ws _ (indentChars L) _ (indentChars_ws L),
          parseJMembers_eq_quote, parseJStringBody_quote k.data]
        show (match skipJWs (':' :: ' ' :: (printJson pf L v
              ++ (',' :: '\n' :: (printMembers pf L (m2 :: t2)
                ++ '\n' :: (indentChars cl ++ '\x7d' :: rest))))) with
          | ':' :: r2 =>
            (match parseJValue f r2 with
             | none => none
             | some (v2, r3) =>
               match skipJWs r3 with
               | ',' :: r4 =>
                   (parseJMembers f r4).map
                     (fun p => ((String.mk k.data, v2) :: p.1, p.2))
               | '\x7d' :: r4 => some ([(String.mk k.data, v2)], r4)
               | _ => none)
          | _ => none) = some ((k, v) :: m2 :: t2, rest)
        rw [skipJWs_not_ws _ (by decide)]
        have hv : parseJValue f (' ' :: (printJson pf L v
              ++ (',' :: '\n' :: (printMembers pf L (m2 :: t2)
                ++ '\n' :: (indentChars cl ++ '\x7d' :: rest)))))
            = some (v, ',' :: '\n' :: (printMembers pf L (m2 :: t2)
                ++ '\n' :: (indentChars cl ++ '\x7d' :: rest))) := by
          rw [show (' ' :: (printJson pf L v
              ++ (',' :: '\n' :: (printMembers pf L (m2 :: t2)
                ++ '\n' :: (indentChars cl ++ '\x7d' :: rest)))))
            = [' '] ++ (printJson pf L v ++ (',' :: '\n' :: (printMembers pf L (m2 :: t2)
                ++ '\n' :: (indentChars cl ++ '\x7d' :: rest))))
            from rfl, parseJValue_shed_ws f [' '] _ (by intro cc hcc; simp at hcc; subst hcc; rfl)]
          refine rtVal v pf L f _ (hwf (k, v) (List.mem_cons_self _ _)) ?_ ?_ rfl
          · simp only [jsizeP] at hsz; omega
          · simp only [List.length_append, List.length_cons, quoteChars] at hf; omega
        show (match parseJValue f (' ' :: (printJson pf L v
              ++ (',' :: '\n' :: (printMembers pf L (m2 :: t2)
                ++ '\n' :: (indentChars cl ++ '\x7d' :: rest))))) with
          | none => none
          | some (v2, r3) =>
            match skipJWs r3 with
            | ',' :: r4 =>
                (parseJMembers f r4).map
                  (fun p => ((String.mk k.data, v2) :: p.1, p.2))
            | '\x7d' :: r4 => some ([(String.mk k.data, v2)], r4)
            | _ => none) = some ((k, v) :: m2 :: t2, rest)
        rw [hv]
        show (match skipJWs (',' :: '\n' :: (printMembers pf L (m2 :: t2)
              ++ '\n' :: (indentChars cl ++ '\x7d' :: rest))) with
          | ',' :: r4 =>
              (parseJMembers f r4).map
                (fun p => ((String.mk k.data, v) :: p.1, p.2))
          | '\x7d' :: r4 => some ([(String.mk k.data, v)], r4)
          | _ => none) = some ((k, v) :: m2 :: t2, rest)
        rw [skipJWs_not_ws _ (by decide)]
        have hrec : parseJMembers f ('\n' :: (printMembers pf L (m2 :: t2)
              ++ '\n' :: (indentChars cl ++ '\x7d' :: rest)))
            = some (m2 :: t2, rest) := by
          have hshed := parseJMembers_shed_ws f ['\n']
            (printMembers pf L (m2 :: t2) ++ '\n' :: (indentChars cl ++ '\x7d' :: rest))
            (by intro cc hcc; simp at hcc; subst hcc; rfl)
          rw [show ('\n' :: (printMembers pf L (m2 :: t2)
              ++ '\n' :: (indentChars cl ++ '\x7d' :: rest)))
            = ['\n'] ++ (printMembers pf L (m2 :: t2)
              ++ '\n' :: (indentChars cl ++ '\x7d' :: rest)) from rfl, hshed]
          refine rtMembers m2 t2 pf L cl f rest
            (fun z hz => hwf z (List.mem_cons_of_mem _ hz)) ?_ ?_
          · simp only [jsizeP] at hsz ⊢; omega
          · simp only [List.length_append, List.length_cons, quoteChars] at hf; omega
        show (parseJMembers f ('\n' :: (printMembers pf L (m2 :: t2)
              ++ '\n' :: (indentChars cl ++ '\x7d' :: rest)))).map
              (fun p => ((String.mk k.data, v) :: p.1, p.2))
            = some ((k, v) :: m2 :: t2, rest)
        rw [hrec]
        rfl
  termination_by m t _ _ _ _ _ _ _ _ => sizeOf m + sizeOf t

end

/-! ### JSON round trip: top level -/

theorem keysNodupB_nodup : ∀ l : List String, keysNodupB l = true → l.Nodup := by
  intro l
  induction l with
  | nil => intro _; exact List.nodup_nil
  | cons k t ih =>
    intro h
    simp only [keysNodupB, Bool.and_eq_true, Bool.not_eq_true'] at h
    refine List.nodup_cons.mpr ⟨?_, ih h.2⟩
    intro hmem
    have : t.contains k = true := List.elem_eq_true_of_mem hmem
    rw [this] at h
    exact absurd h.1 (by simp)

theorem wfJson_sound : ∀ f, (∀ v, wfJsonB f v = true → WFJson v)
    ∧ (∀ xs, wfJListB f xs = true → ∀ x ∈ xs, WFJson x)
    ∧ (∀ ms, wfJPairsB f ms = true → ∀ m ∈ ms, WFJson m.2) := by
  intro f
  induction f with
  | zero =>
    refine ⟨?_, ?_, ?_⟩ <;> intro a h <;> simp [wfJsonB, wfJListB, wfJPairsB] at h
  | succ f ih =>
    obtain ⟨ihv, ihl, ihp⟩ := ih
    refine ⟨?_, ?_, ?_⟩
    · intro v h
      cases v with
      | null => exact WFJson.null
      | bool b => exact WFJson.bool b
      | num n => exact WFJson.num n
      | str s => exact WFJson.str s
      | arr xs =>
        simp only [wfJsonB] at h
        exact WFJson.arr xs (ihl xs h)
      | obj ms =>
        simp only [wfJsonB, Bool.and_eq_true] at h
        exact WFJson.obj ms (keysNodupB_nodup _ h.1) (ihp ms h.2)
    · intro xs h x hx
      cases xs with
      | nil => cases hx
      | cons y t =>
        simp only [wfJListB, Bool.and_eq_true] at h
        rcases List.mem_cons.mp hx with rfl | hx2
        · exact ihv x h.1
        · exact ihl t h.2 x hx2
    · intro ms h m hm
      cases ms with
      | nil => cases hm
      | cons y t =>
        simp only [wfJPairsB, Bool.and_eq_true] at h
        rcases List.mem_cons.mp hm with rfl | hm2
        · exact ihv m.2 h.1
        · exact ihp t h.2 m hm2

theorem jsonParse_stringify (D : Json) (h : WFDoc D) :
    jsonParse (jsonStringify D) = some D := by
  obtain ⟨f, hwfb⟩ := h
  have hwf : WFJson D := (wfJson_sound f).1 D hwfb
  rw [jsonParse, jsonStringify]
  have hroundtrip := rtVal D (jsize D) 0 ((printJson (jsize D) 0 D).length + 1) []
    hwf le_rfl (by omega) rfl
  rw [List.append_nil] at hroundtrip
  show (match parseJValue ((String.mk (printJson (jsize D) 0 D)).length + 1)
      (printJson (jsize D) 0 D) with
    | some (v, r) => if (skipJWs r).isEmpty then some v else none
    | none => none) = some D
  have hlen : (String.mk (printJson (jsize D) 0 D)).length
      = (printJson (jsize D) 0 D).length := rfl
  rw [hlen, hroundtrip]
  rfl

/-- Claim C3: for every well-formed Data Store document, saving it (saveData,
JSON.stringify with 2-space indent) and loading the saved text back
(loadData/loadAndDisplayData, JSON.parse) returns the same document:
load(save(D)) = D. -/
theorem load_save_roundtrip (D : Json) (h : WFDoc D) :
    loadDataText (saveDataText D) = some D := by
  rw [saveDataText, loadDataText]
  exact jsonParse_stringify D h

/-- Witness for claim C3 at a concrete publications document. -/
theorem load_save_roundtrip_witness : loadDataText (saveDataText docC3) = some docC3 :=
  load_save_roundtrip docC3 ⟨12, by decide⟩

/-! ### Claim C2: render determinism -/

/-- Counterexample to claim C2 as stated: the sitemap artifact is not a
function of the input document alone — the five-page list is fixed, yet two
runs on different days produce different bytes, because every url element's
lastmod field holds the run date. -/
theorem generateSitemap_differs_across_days : generateSitemap dayOne ≠ generateSitemap dayTwo := by
  decide

/-- Claim C2 (amended): every modelled render function is deterministic as a
function of its full input — the publication HTML is a function of the
publication record, and the sitemap is a function of the run date, so byte
identity holds whenever document and run date coincide. -/
theorem render_deterministic :
    (∀ p q : Pub, p = q → generatePublicationHTML p = generatePublicationHTML q)
    ∧ ∀ d1 d2 : String, d1 = d2 → generateSitemap d1 = generateSitemap d2 :=
  ⟨fun _ _ h => by rw [h], fun _ _ h => by rw [h]⟩

/-- Witness for claim C2 at a concrete record and date. -/
theorem render_deterministic_witness :
    generatePublicationHTML pubA = generatePublicationHTML pubA
    ∧ generateSitemap dayOne = generateSitemap dayOne :=
  ⟨render_deterministic.1 pubA pubA rfl, render_deterministic.2 dayOne dayOne rfl⟩

/-! ### Claim C5: the metrics scenario -/

/-- Claim C5: on the collection with years 2023, 2023, 2024 and statuses
published, submitted, published, the metrics are total 3, by-year
2023 to 2, 2024 to 1, by-status published to 2, submitted to 1, and the
latest publication has year 2024. -/
theorem metrics_scenario :
    (generateAcademicMetrics pubsC5 dayOne).total_publications = 3
    ∧ (generateAcademicMetrics pubsC5 dayOne).publications_by_year = [(2023, 2), (2024, 1)]
    ∧ (generateAcademicMetrics pubsC5 dayOne).publications_by_status
        = [(r"published", 2), (r"submitted", 1)]
    ∧ ((generateAcademicMetrics pubsC5 dayOne).latest_publication).map (fun p => p.year)
        = some 2024 := by
  refine ⟨rfl, by decide, by decide, by decide⟩

/-! ### Claim C10: totals after the adding operations -/

/-- Claim C10: after addPublication and after the BibTeX update,
statistics.total_publications equals the length of the publications
sequence, and the editor puts the new publication at the front. -/
theorem totals_afterepub_adding_ops :
    ∀ (doc : PublicationsDoc) (pub : Pub) (bibPubs : List Pub) (today : String),
      (addPublication doc pub today).statistics.total_publications
          = (addPublication doc pub today).publications.length
      ∧ (addPublication doc pub today).publications.head? = some pub
      ∧ (updatePublicationsFromSources doc bibPubs today).statistics.total_publications
          = (updatePublicationsFromSources doc bibPubs today).publications.length :=
  fun _ _ _ _ => ⟨rfl, rfl, rfl⟩

/-! ### Claim C6: the BibTeX extraction scenario -/

/-- Counterexample to claim C6 as stated: on the literal one-line text of the
entry the parser produces no candidate publication at all — the entry regex
only matches an entry whose closing brace is preceded by a newline. -/
theorem bibOneLine_no_candidate : parseBibtexModel bibOneLine 2025 = [] := rfl

/-- Claim C6 (amended): with the entry written with its closing brace on a
new line (standard .bib layout, as the entry regex requires), the parser
produces exactly one candidate publication, whose authors field is the empty
list (present, not omitted) and whose year is 2022, for every current
year. -/
theorem bibMultiLine_candidate :
    ∀ cy : Int, ∃ p, parseBibtexModel bibMultiLine cy = [p]
      ∧ p.authors = [] ∧ p.year = 2022 := by
  intro cy
  exact ⟨{ id := "k1", title := "T", authors := [], journal := unknownJournal,
           year := 2022, doi := none, abstract := "", type := journalWord,
           status := publishedWord, image := none, awards := none },
         rfl, rfl, rfl⟩

/-! ### Claim C7: the collaboration network -/

/-- The collaborator loop drops an author equal to the owner or containing
the substring Roman. -/
theorem collabAddAuthor_eq_of_fail (acc : List String) (au : String)
    (h : au = ownerMarker ∨ containsSubstr au romanSubstr = true) :
    collabAddAuthor acc au = acc := by
  unfold collabAddAuthor
  rcases h with rfl | h
  · simp
  · simp [h]

/-- The collaborator loop skips an author already in the Set. -/
theorem collabAddAuthor_eq_of_pass_mem (acc : List String) (au : String)
    (h1 : au ≠ ownerMarker) (h2 : containsSubstr au romanSubstr = false)
    (hmem : au ∈ acc) : collabAddAuthor acc au = acc := by
  unfold collabAddAuthor
  simp [h1, h2, hmem]

/-- The collaborator loop appends a passing author not yet in the Set. -/
theorem collabAddAuthor_eq_of_pass_not_mem (acc : List String) (au : String)
    (h1 : au ≠ ownerMarker) (h2 : containsSubstr au romanSubstr = false)
    (hmem : au ∉ acc) : collabAddAuthor acc au = acc ++ [au] := by
  unfold collabAddAuthor
  simp [h1, h2, hmem]

/-- Membership after one Set.add step of the collaborator loop. -/
theorem mem_collabAddAuthor (acc : List String) (au a : String) :
    a ∈ collabAddAuthor acc au
    ↔ a ∈ acc ∨ (a = au ∧ au ≠ ownerMarker ∧ containsSubstr au romanSubstr = false) := by
  by_cases h1 : au = ownerMarker
  · rw [collabAddAuthor_eq_of_fail acc au (Or.inl h1)]
    simp [h1]
  · by_cases h2 : containsSubstr au romanSubstr = true
    · rw [collabAddAuthor_eq_of_fail acc au (Or.inr h2)]
      simp [h2]
    · have h2' : containsSubstr au romanSubstr = false := by
        cases hc : containsSubstr au romanSubstr
        · rfl
        · exact absurd hc h2
      by_cases hmem : au ∈ acc
      · rw [collabAddAuthor_eq_of_pass_mem acc au h1 h2' hmem]
        constructor
        · exact Or.inl
        · rintro (h | ⟨rfl, _, _⟩)
          · exact h
          · exact hmem
      · rw [collabAddAuthor_eq_of_pass_not_mem acc au h1 h2' hmem]
        simp [h1, h2', List.mem_append]

/-- Membership after folding the collaborator loop over an author list. -/
theorem foldl_collabAdd_mem (authors : List String) :
    ∀ (acc : List String) (a : String),
      a ∈ authors.foldl collabAddAuthor acc
      ↔ a ∈ acc ∨ (a ∈ authors ∧ a ≠ ownerMarker
                    ∧ containsSubstr a romanSubstr = false) := by
  induction authors with
  | nil => simp
  | cons au t ih =>
    intro acc a
    rw [List.foldl_cons, ih, mem_collabAddAuthor]
    constructor
    · rintro ((h | ⟨rfl, h1, h2⟩) | ⟨ht, h1, h2⟩)
      · exact Or.inl h
      · exact Or.inr ⟨List.mem_cons_self a t, h1, h2⟩
      · exact Or.inr ⟨List.mem_cons_of_mem au ht, h1, h2⟩
    · rintro (h | ⟨hmem, h1, h2⟩)
      · exact Or.inl (Or.inl h)
      · rcases List.mem_cons.mp hmem with rfl | ht
        · exact Or.inl (Or.inr ⟨rfl, h1, h2⟩)
        · exact Or.inr ⟨ht, h1, h2⟩

/-- Membership after folding the collaborator loop over the whole
collection. -/
theorem foldl_pubs_collab_mem (pubs : List Pub) :
    ∀ (acc : List String) (a : String),
      a ∈ pubs.foldl (fun acc p => p.authors.foldl collabAddAuthor acc) acc
      ↔ a ∈ acc ∨ ((∃ p ∈ pubs, a ∈ p.authors) ∧ a ≠ ownerMarker
                    ∧ containsSubstr a romanSubstr = false) := by
  induction pubs with
  | nil => simp
  | cons p t ih =>
    intro acc a
    rw [List.foldl_cons, ih, foldl_collabAdd_mem]
    constructor
    · rintro ((h | ⟨hmem, h1, h2⟩) | ⟨⟨q, hq, hmem⟩, h1, h2⟩)
      · exact Or.inl h
      · exact Or.inr ⟨⟨p, List.mem_cons_self p t, hmem⟩, h1, h2⟩
      · exact Or.inr ⟨⟨q, List.mem_cons_of_mem p hq, hmem⟩, h1, h2⟩
    · rintro (h | ⟨⟨q, hq, hmem⟩, h1, h2⟩)
      · exact Or.inl (Or.inl h)
      · rcases List.mem_cons.mp hq with rfl | ht
        · exact Or.inl (Or.inr ⟨hmem, h1, h2⟩)
        · exact Or.inr ⟨⟨q, ht, hmem⟩, h1, h2⟩

/-- One Set.add step preserves freedom from duplicates. -/
theorem collabAddAuthor_nodup (acc : List String) (au : String) (h : acc.Nodup) :
    (collabAddAuthor acc au).Nodup := by
  unfold collabAddAuthor
  split_ifs with hpass hcont
  · exact h
  · have hnot : au ∉ acc := fun hmem => hcont (by simpa using hmem)
    rw [List.nodup_append]
    exact ⟨h, List.nodup_singleton au, by simpa using hnot⟩
  · exact h

/-- The author fold preserves freedom from duplicates. -/
theorem foldl_collabAdd_nodup (authors : List String) :
    ∀ acc : List String, acc.Nodup → (authors.foldl collabAddAuthor acc).Nodup := by
  induction authors with
  | nil => exact fun _ h => h
  | cons au t ih => exact fun acc h => ih _ (collabAddAuthor_nodup acc au h)

/-- The collection fold preserves freedom from duplicates. -/
theorem foldl_pubs_collab_nodup (pubs : List Pub) :
    ∀ acc : List String, acc.Nodup →
      (pubs.foldl (fun acc p => p.authors.foldl collabAddAuthor acc) acc).Nodup := by
  induction pubs with
  | nil => exact fun _ h => h
  | cons p t ih => exact fun acc h => ih _ (foldl_collabAdd_nodup p.authors acc h)

/-- Counterexample to claim C7 as stated: the author A Romanov of the single
publication is not the profile owner R Korol, yet the derived collaborator
set is missing it — the loop also drops every author whose name contains the
substring Roman. -/
theorem collaborators_exclude_non_owner :
    romanovName ∈ pubC7.authors ∧ pubC7 ∈ pubsC7 ∧ romanovName ≠ ownerMarker
    ∧ romanovName ∉ (generateAcademicMetrics pubsC7 dayOne).collaboration_network := by
  decide

/-- Claim C7 (amended): the derived collaboration_network is duplicate-free
and contains exactly those author names occurring in the collection that are
neither the owner string R Korol nor contain the substring Roman. -/
theorem collaboration_network_spec (pubs : List Pub) (d : String) :
    (generateAcademicMetrics pubs d).collaboration_network.Nodup
    ∧ ∀ a : String,
        a ∈ (generateAcademicMetrics pubs d).collaboration_network
        ↔ (∃ p ∈ pubs, a ∈ p.authors) ∧ a ≠ ownerMarker
            ∧ containsSubstr a romanSubstr = false := by
  constructor
  · exact foldl_pubs_collab_nodup pubs [] List.nodup_nil
  · intro a
    show a ∈ collaborationNetwork pubs ↔ _
    rw [collaborationNetwork, foldl_pubs_collab_mem]
    simp

/-- Witness for claim C7 at a concrete collection. -/
theorem collaboration_network_spec_witness :
    (generateAcademicMetrics pubsC5 dayOne).collaboration_network.Nodup :=
  (collaboration_network_spec pubsC5 dayOne).1

/-! ### Claim C9: articles only, with explicit defaults -/

/-- Inversion of the extraction loop body: a candidate publication only
arises from an article entry (case-insensitively) and carries the explicit
defaults for its missing fields. -/
theorem entryToPub_some_inv (cy : Int) (e : BibEntry) (p : Pub)
    (h : entryToPub cy e = some p) :
    strToLower e.etype = articleWord
    ∧ (fieldVal (bibFields e.content) authorField = none → p.authors = [])
    ∧ (fieldVal (bibFields e.content) journalField = none → p.journal = unknownJournal)
    ∧ (fieldVal (bibFields e.content) yearField = none → p.year = cy) := by
  simp only [entryToPub] at h
  split_ifs at h with hc
  · simp only [Bool.and_eq_true, beq_iff_eq] at hc
    injection h with hp
    refine ⟨hc.1, ?_, ?_, ?_⟩
    · intro hf
      rw [← hp]
      simp [hf]
    · intro hf
      rw [← hp]
      simp [hf]
    · intro hf
      rw [← hp]
      simp [hf]

/-- Claim C9: every candidate publication the BibTeX parser produces comes
from an entry whose type is article (all other entry types are ignored), and
a missing author, journal or year field yields the explicit default: empty
author list, Unknown Journal, the current year. -/
theorem bibtex_articles_and_defaults :
    ∀ (text : String) (cy : Int) (p : Pub), p ∈ parseBibtexModel text cy →
      ∃ e ∈ bibtexEntries text,
        entryToPub cy e = some p
        ∧ strToLower e.etype = articleWord
        ∧ (fieldVal (bibFields e.content) authorField = none → p.authors = [])
        ∧ (fieldVal (bibFields e.content) journalField = none →
            p.journal = unknownJournal)
        ∧ (fieldVal (bibFields e.content) yearField = none → p.year = cy) := by
  intro text cy p hp
  rw [parseBibtexModel] at hp
  obtain ⟨e, he, hep⟩ := List.mem_filterMap.mp hp
  obtain ⟨h1, h2, h3, h4⟩ := entryToPub_some_inv cy e p hep
  exact ⟨e, he, hep, h1, h2, h3, h4⟩

/-- Witness for claim C9 on a file holding a book entry and an article entry
with only a title: the book entry is ignored and the article candidate gets
every default. -/
theorem bibtex_articles_and_defaults_witness :
    ∃ e ∈ bibtexEntries bibC9,
      entryToPub 2025 e = some pC9
      ∧ strToLower e.etype = articleWord
      ∧ (fieldVal (bibFields e.content) authorField = none → pC9.authors = [])
      ∧ (fieldVal (bibFields e.content) journalField = none →
          pC9.journal = unknownJournal)
      ∧ (fieldVal (bibFields e.content) yearField = none → pC9.year = 2025) :=
  bibtex_articles_and_defaults bibC9 2025 pC9 (by decide)

/-! ### Claim C4: validator issue counts -/

/-- Strings with equal character lists are equal. -/
theorem stringExt {s t : String} (h : s.data = t.data) : s = t := by
  cases s
  cases t
  exact congrArg String.mk h

/-- The decimal print of a natural number is injective. -/
theorem natStr_inj {a b : Nat} (h : natStr a = natStr b) : a = b := by
  have hd : natChars a = natChars b := congrArg String.data h
  have hv := congrArg digitsVal hd
  rwa [digitsVal_natChars, digitsVal_natChars] at hv

/-- A digit run followed by a non-digit is what takeWhile recovers. -/
theorem takeWhile_digits_append (A S : List Char)
    (hA : ∀ c ∈ A, c.isDigit = true)
    (hS : ∀ c, S.head? = some c → c.isDigit = false) :
    (A ++ S).takeWhile Char.isDigit = A := by
  induction A with
  | nil =>
    cases S with
    | nil => rfl
    | cons c t =>
      simp [List.takeWhile_cons, hS c rfl]
  | cons a t ih =>
    have ha : a.isDigit = true := hA a (List.mem_cons_self a t)
    simp only [List.cons_append, List.takeWhile_cons, ha, if_true]
    rw [ih (fun c hc => hA c (List.mem_cons_of_mem a hc))]

/-- Unique factorization of a digit run followed by a non-digit suffix. -/
theorem digit_run_append_inj (A B S1 S2 : List Char)
    (hA : ∀ c ∈ A, c.isDigit = true) (hB : ∀ c ∈ B, c.isDigit = true)
    (h1 : ∀ c, S1.head? = some c → c.isDigit = false)
    (h2 : ∀ c, S2.head? = some c → c.isDigit = false)
    (heq : A ++ S1 = B ++ S2) : A = B ∧ S1 = S2 := by
  have hA' := takeWhile_digits_append A S1 hA h1
  have hB' := takeWhile_digits_append B S2 hB h2
  have hAB : A = B := by rw [← hA', ← hB', heq]
  subst hAB
  exact ⟨rfl, List.append_cancel_left heq⟩

theorem missingSuffix_head : ∀ c, missingSuffix.data.head? = some c → c.isDigit = false := by
  intro c hc
  have h0 : missingSuffix.data.head? = some ':' := rfl
  rw [h0] at hc
  injection hc with hc
  subst hc
  decide

theorem doiSuffix_head : ∀ c, doiSuffix.data.head? = some c → c.isDigit = false := by
  intro c hc
  have h0 : doiSuffix.data.head? = some ':' := rfl
  rw [h0] at hc
  injection hc with hc
  subst hc
  decide

theorem yearSuffix_head : ∀ c, yearSuffix.data.head? = some c → c.isDigit = false := by
  intro c hc
  have h0 : yearSuffix.data.head? = some ':' := rfl
  rw [h0] at hc
  injection hc with hc
  subst hc
  decide

/-- Two per-publication issue strings agree only on equal index and equal
check suffix. -/
theorem pubIssue_inj (i j : Nat) (X Y : String)
    (hX : ∀ c, X.data.head? = some c → c.isDigit = false)
    (hY : ∀ c, Y.data.head? = some c → c.isDigit = false)
    (h : pubIssueHead ++ (natStr (i + 1) ++ X) = pubIssueHead ++ (natStr (j + 1) ++ Y)) :
    i = j ∧ X = Y := by
  have hd := congrArg String.data h
  simp only [String.data_append] at hd
  have hd2 : (natStr (i + 1)).data ++ X.data = (natStr (j + 1)).data ++ Y.data :=
    List.append_cancel_left hd
  have hdig : ∀ n : Nat, ∀ c ∈ (natStr n).data, c.isDigit = true :=
    fun n => natChars_all_digits n
  obtain ⟨hAB, hS⟩ :=
    digit_run_append_inj _ _ _ _ (hdig (i + 1)) (hdig (j + 1)) hX hY hd2
  refine ⟨?_, stringExt hS⟩
  have hn : (i + 1 : Nat) = j + 1 := natStr_inj (stringExt hAB)
  omega

theorem pubIssueDoi_inj {i j : Nat} (h : pubIssueDoi i = pubIssueDoi j) : i = j :=
  (pubIssue_inj i j doiSuffix doiSuffix doiSuffix_head doiSuffix_head h).1

theorem pubIssueYear_inj {i j : Nat} (h : pubIssueYear i = pubIssueYear j) : i = j :=
  (pubIssue_inj i j yearSuffix yearSuffix yearSuffix_head yearSuffix_head h).1

theorem pubIssueDoi_ne_missing (i j : Nat) : pubIssueDoi i ≠ pubIssueMissing j := by
  intro h
  have := (pubIssue_inj i j doiSuffix missingSuffix doiSuffix_head missingSuffix_head h).2
  exact absurd this (by decide)

theorem pubIssueDoi_ne_year (i j : Nat) : pubIssueDoi i ≠ pubIssueYear j := by
  intro h
  have := (pubIssue_inj i j doiSuffix yearSuffix doiSuffix_head yearSuffix_head h).2
  exact absurd this (by decide)

theorem pubIssueYear_ne_missing (i j : Nat) : pubIssueYear i ≠ pubIssueMissing j := by
  intro h
  have := (pubIssue_inj i j yearSuffix missingSuffix yearSuffix_head missingSuffix_head h).2
  exact absurd this (by decide)

/-- Every per-publication issue string opens with the letter P. -/
theorem pubIssue_head (i : Nat) (X : String) :
    (pubIssueHead ++ (natStr (i + 1) ++ X)).data.head? = some 'P' := by
  rw [String.data_append]
  rfl

/-- The duplicate issue string opens with the letter D. -/
theorem dup_head (X : String) : (dupIssueHead ++ X).data.head? = some 'D' := by
  rw [String.data_append]
  rfl

theorem ne_of_data_head_ne {s t : String} (h : s.data.head? ≠ t.data.head?) : s ≠ t :=
  fun he => h (by rw [he])

theorem pubIssueDoi_ne_personal (i : Nat) : pubIssueDoi i ≠ personalIssue := by
  apply ne_of_data_head_ne
  show (pubIssueHead ++ (natStr (i + 1) ++ doiSuffix)).data.head? ≠ _
  rw [pubIssue_head]
  decide

theorem pubIssueYear_ne_personal (i : Nat) : pubIssueYear i ≠ personalIssue := by
  apply ne_of_data_head_ne
  show (pubIssueHead ++ (natStr (i + 1) ++ yearSuffix)).data.head? ≠ _
  rw [pubIssue_head]
  decide

theorem pubIssueDoi_ne_dup (i : Nat) (X : String) : pubIssueDoi i ≠ dupIssueHead ++ X := by
  apply ne_of_data_head_ne
  show (pubIssueHead ++ (natStr (i + 1) ++ doiSuffix)).data.head? ≠ _
  rw [pubIssue_head, dup_head]
  decide

theorem pubIssueYear_ne_dup (i : Nat) (X : String) : pubIssueYear i ≠ dupIssueHead ++ X := by
  apply ne_of_data_head_ne
  show (pubIssueHead ++ (natStr (i + 1) ++ yearSuffix)).data.head? ≠ _
  rw [pubIssue_head, dup_head]
  decide

/-- The issues one publication contributes are its three possible issue
strings. -/
theorem mem_perPubIssues (cy : Int) (k : Nat) (q : Pub) (s : String)
    (h : s ∈ perPubIssues cy k q) :
    s = pubIssueMissing k ∨ s = pubIssueDoi k ∨ s = pubIssueYear k := by
  rw [perPubIssues] at h
  rcases List.mem_append.mp h with h | h
  · rcases List.mem_append.mp h with h | h
    · left
      revert h
      split_ifs with hc
      · intro h
        simpa using h
      · intro h
        cases h
    · right
      left
      revert h
      split_ifs with hc
      · intro h
        simpa using h
      · intro h
        cases h
  · right
    right
    revert h
    split_ifs with hc
    · intro h
      simpa using h
    · intro h
      cases h

/-- The DOI-issue count one publication contributes. -/
theorem count_perPubIssues_doi (cy : Int) (k m : Nat) (q : Pub) :
    (perPubIssues cy k q).count (pubIssueDoi m)
      = if m = k ∧ doiCheck q = true then 1 else 0 := by
  rw [perPubIssues, List.count_append, List.count_append]
  have h1 : (if missingCheck q then [pubIssueMissing k] else []).count (pubIssueDoi m) = 0 := by
    split_ifs
    · simp [List.count_cons, pubIssueDoi_ne_missing m k]
    · rfl
  have h3 : (if yearCheck cy q then [pubIssueYear k] else []).count (pubIssueDoi m) = 0 := by
    split_ifs
    · simp [List.count_cons, pubIssueDoi_ne_year m k]
    · rfl
  rw [h1, h3]
  by_cases hm : m = k
  · subst hm
    by_cases hd : doiCheck q = true
    · simp [hd]
    · have hd' : doiCheck q = false := by
        cases hdd : doiCheck q
        · rfl
        · exact absurd hdd hd
      simp [hd']
  · have hne : pubIssueDoi m ≠ pubIssueDoi k := fun hh => hm (pubIssueDoi_inj hh)
    have hr : (if m = k ∧ doiCheck q = true then 1 else 0) = 0 := by
      rw [if_neg]
      rintro ⟨hk, _⟩
      exact hm hk
    rw [hr]
    by_cases hd : doiCheck q = true
    · simp [hd, List.count_cons, hne]
    · have hd' : doiCheck q = false := by
        cases hdd : doiCheck q
        · rfl
        · exact absurd hdd hd
      simp [hd']

/-- The year-issue count one publication contributes. -/
theorem count_perPubIssues_year (cy : Int) (k m : Nat) (q : Pub) :
    (perPubIssues cy k q).count (pubIssueYear m)
      = if m = k ∧ yearCheck cy q = true then 1 else 0 := by
  rw [perPubIssues, List.count_append, List.count_append]
  have h1 : (if missingCheck q then [pubIssueMissing k] else []).count (pubIssueYear m) = 0 := by
    split_ifs
    · simp [List.count_cons, pubIssueYear_ne_missing m k]
    · rfl
  have h2 : (if doiCheck q then [pubIssueDoi k] else []).count (pubIssueYear m) = 0 := by
    split_ifs
    · simp [List.count_cons, (pubIssueDoi_ne_year k m).symm]
    · rfl
  rw [h1, h2]
  by_cases hm : m = k
  · subst hm
    by_cases hy : yearCheck cy q = true
    · simp [hy]
    · have hy' : yearCheck cy q = false := by
        cases hyy : yearCheck cy q
        · rfl
        · exact absurd hyy hy
      simp [hy']
  · have hne : pubIssueYear m ≠ pubIssueYear k := fun hh => hm (pubIssueYear_inj hh)
    have hr : (if m = k ∧ yearCheck cy q = true then 1 else 0) = 0 := by
      rw [if_neg]
      rintro ⟨hk, _⟩
      exact hm hk
    rw [hr]
    by_cases hy : yearCheck cy q = true
    · simp [hy, List.count_cons, hne]
    · have hy' : yearCheck cy q = false := by
        cases hyy : yearCheck cy q
        · rfl
        · exact absurd hyy hy
      simp [hy']

/-- Every issue the indexed forEach emits is an issue string of some indexed
publication. -/
theorem mem_perPubIssuesFrom (cy : Int) (pubs : List Pub) :
    ∀ (k : Nat) (s : String), s ∈ perPubIssuesFrom cy k pubs →
      ∃ j, j < pubs.length ∧
        (s = pubIssueMissing (k + j) ∨ s = pubIssueDoi (k + j) ∨ s = pubIssueYear (k + j)) := by
  induction pubs with
  | nil =>
    intro k s h
    cases h
  | cons q t ih =>
    intro k s h
    rw [perPubIssuesFrom] at h
    rcases List.mem_append.mp h with h | h
    · exact ⟨0, by simp, by simpa using mem_perPubIssues cy k q s h⟩
    · obtain ⟨j, hj, hcase⟩ := ih (k + 1) s h
      refine ⟨j + 1, by simpa using hj, ?_⟩
      rw [show k + (j + 1) = (k + 1) + j from by omega]
      exact hcase

/-- The DOI-issue count of the indexed forEach: exactly the indexed
publication's own check. -/
theorem count_perPubIssuesFrom_doi (cy : Int) (pubs : List Pub) :
    ∀ (k i : Nat) (p : Pub), pubs.get? i = some p →
      (perPubIssuesFrom cy k pubs).count (pubIssueDoi (k + i))
        = if doiCheck p = true then 1 else 0 := by
  induction pubs with
  | nil =>
    intro k i p h
    cases h
  | cons q t ih =>
    intro k i p h
    rw [perPubIssuesFrom, List.count_append]
    cases i with
    | zero =>
      have hq : q = p := by injection h
      subst hq
      rw [count_perPubIssues_doi]
      have hrest : (perPubIssuesFrom cy (k + 1) t).count (pubIssueDoi (k + 0)) = 0 := by
        rw [List.count_eq_zero]
        intro hmem
        obtain ⟨j, _, hcase⟩ := mem_perPubIssuesFrom cy t (k + 1) _ hmem
        rcases hcase with hc | hc | hc
        · exact pubIssueDoi_ne_missing _ _ hc
        · have := pubIssueDoi_inj hc
          omega
        · exact pubIssueDoi_ne_year _ _ hc
      rw [hrest]
      by_cases hd : doiCheck q = true
      · simp [hd]
      · have hd' : doiCheck q = false := by
          cases hdd : doiCheck q
          · rfl
          · exact absurd hdd hd
        simp [hd']
    | succ j =>
      have h' : t.get? j = some p := h
      have hq : (perPubIssues cy k q).count (pubIssueDoi (k + (j + 1))) = 0 := by
        rw [count_perPubIssues_doi, if_neg]
        rintro ⟨hk, _⟩
        omega
      rw [hq]
      have hih := ih (k + 1) j p h'
      rw [show (k + 1) + j = k + (j + 1) from by omega] at hih
      simpa using hih

/-- The year-issue count of the indexed forEach: exactly the indexed
publication's own check. -/
theorem count_perPubIssuesFrom_year (cy : Int) (pubs : List Pub) :
    ∀ (k i : Nat) (p : Pub), pubs.get? i = some p →
      (perPubIssuesFrom cy k pubs).count (pubIssueYear (k + i))
        = if yearCheck cy p = true then 1 else 0 := by
  induction pubs with
  | nil =>
    intro k i p h
    cases h
  | cons q t ih =>
    intro k i p h
    rw [perPubIssuesFrom, List.count_append]
    cases i with
    | zero =>
      have hq : q = p := by injection h
      subst hq
      rw [count_perPubIssues_year]
      have hrest : (perPubIssuesFrom cy (k + 1) t).count (pubIssueYear (k + 0)) = 0 := by
        rw [List.count_eq_zero]
        intro hmem
        obtain ⟨j, _, hcase⟩ := mem_perPubIssuesFrom cy t (k + 1) _ hmem
        rcases hcase with hc | hc | hc
        · exact pubIssueYear_ne_missing _ _ hc
        · exact (pubIssueDoi_ne_year _ _ hc.symm)
        · have := pubIssueYear_inj hc
          omega
      rw [hrest]
      by_cases hy : yearCheck cy q = true
      · simp [hy]
      · have hy' : yearCheck cy q = false := by
          cases hyy : yearCheck cy q
          · rfl
          · exact absurd hyy hy
        simp [hy']
    | succ j =>
      have h' : t.get? j = some p := h
      have hq : (perPubIssues cy k q).count (pubIssueYear (k + (j + 1))) = 0 := by
        rw [count_perPubIssues_year, if_neg]
        rintro ⟨hk, _⟩
        omega
      rw [hq]
      have hih := ih (k + 1) j p h'
      rw [show (k + 1) + j = k + (j + 1) from by omega] at hih
      simpa using hih

/-- indexOf finds the first occurrence, so it is at most any occurrence. -/
theorem indexOf_le_of_get2 (l : List String) :
    ∀ (i : Nat) (t : String), l.get? i = some t → l.indexOf t ≤ i := by
  induction l with
  | nil =>
    intro i t h
    cases h
  | cons a rest ih =>
    intro i t h
    cases i with
    | zero =>
      have ha : a = t := by injection h
      subst ha
      simp [List.indexOf_cons_self]
    | succ j =>
      by_cases hat : a = t
      · subst hat
        simp [List.indexOf_cons_self]
      · rw [List.indexOf_cons_ne _ hat]
        have := ih j t h
        omega

/-- A non-first occurrence survives the duplicate filter, so the filter
result is nonempty. -/
theorem jsDupFilterFrom_ne_nil (all : List String) :
    ∀ (rest : List String) (k j : Nat) (t : String),
      rest.get? j = some t → all.indexOf t ≠ k + j →
      jsDupFilterFrom all k rest ≠ [] := by
  intro rest
  induction rest with
  | nil =>
    intro k j t h
    cases h
  | cons r0 rt ih =>
    intro k j t hget hne
    rw [jsDupFilterFrom]
    cases j with
    | zero =>
      have hr : r0 = t := by injection hget
      subst hr
      have h' : (all.indexOf r0 == k) = false := by
        simp only [beq_eq_false_iff_ne, ne_eq]
        intro hh
        exact hne (by omega)
      rw [h']
      simp
    | succ m =>
      have hget' : rt.get? m = some t := hget
      have hne' : all.indexOf t ≠ (k + 1) + m := by
        intro hh
        exact hne (by omega)
      have hrec := ih (k + 1) m t hget' hne'
      intro habs
      rcases List.append_eq_nil.mp habs with ⟨_, h2⟩
      exact hrec h2

/-- Two occurrences of the same title make the duplicate list nonempty. -/
theorem jsDupTitles_ne_nil (l : List String) (t : String) (i j : Nat)
    (hij : i < j) (hi : l.get? i = some t) (hj : l.get? j = some t) :
    jsDupTitles l ≠ [] := by
  have hidx : l.indexOf t ≤ i := indexOf_le_of_get2 l i t hi
  rw [jsDupTitles]
  exact jsDupFilterFrom_ne_nil l l 0 j t hj (by omega)

/-- A string opening with the letter P does not carry the duplicate-issue
marker. -/
theorem not_dup_marker_of_head_P (s : String) (h : s.data.head? = some 'P') :
    strStartsWith s dupIssueHead = false := by
  rw [strStartsWith]
  cases hsd : s.data with
  | nil =>
    rw [hsd] at h
    cases h
  | cons c t =>
    rw [hsd] at h
    injection h with hc
    subst hc
    rfl

/-- The DOI-issue count of the whole validator run. -/
theorem count_validate_doi (personal : PersonalDoc) (pubs : List Pub) (cy : Int)
    (i : Nat) (p : Pub) (hget : pubs.get? i = some p) (hd : doiCheck p = true) :
    (validateAcademicData personal pubs cy).count (pubIssueDoi i) = 1 := by
  have h2 := count_perPubIssuesFrom_doi cy pubs 0 i p hget
  rw [Nat.zero_add, hd, if_pos rfl] at h2
  simp only [validateAcademicData, List.count_append]
  rw [h2]
  have hp : (if !truthyStr personal.name || !truthyStr personal.title
      then [personalIssue] else []).count (pubIssueDoi i) = 0 := by
    split_ifs
    · simp [List.count_cons, pubIssueDoi_ne_personal i]
    · rfl
  have hdup : ∀ D : List String,
      (if D.isEmpty then ([] : List String)
       else [dupIssueHead ++ String.intercalate commaSpace D]).count (pubIssueDoi i) = 0 := by
    intro D
    split_ifs
    · rfl
    · simp [List.count_cons, pubIssueDoi_ne_dup i _]
  rw [hp, hdup]

/-- The year-issue count of the whole validator run. -/
theorem count_validate_year (personal : PersonalDoc) (pubs : List Pub) (cy : Int)
    (i : Nat) (p : Pub) (hget : pubs.get? i = some p) (hy : yearCheck cy p = true) :
    (validateAcademicData personal pubs cy).count (pubIssueYear i) = 1 := by
  have h2 := count_perPubIssuesFrom_year cy pubs 0 i p hget
  rw [Nat.zero_add, hy, if_pos rfl] at h2
  simp only [validateAcademicData, List.count_append]
  rw [h2]
  have hp : (if !truthyStr personal.name || !truthyStr personal.title
      then [personalIssue] else []).count (pubIssueYear i) = 0 := by
    split_ifs
    · simp [List.count_cons, pubIssueYear_ne_personal i]
    · rfl
  have hdup : ∀ D : List String,
      (if D.isEmpty then ([] : List String)
       else [dupIssueHead ++ String.intercalate commaSpace D]).count (pubIssueYear i) = 0 := by
    intro D
    split_ifs
    · rfl
    · simp [List.count_cons, pubIssueYear_ne_dup i _]
  rw [hp, hdup]

/-- The duplicate-issue count of the whole validator run, when a duplicate
exists. -/
theorem countP_validate_dup (personal : PersonalDoc) (pubs : List Pub) (cy : Int)
    (hne : jsDupTitles (pubs.map (fun p => strToLower p.title)) ≠ []) :
    (validateAcademicData personal pubs cy).countP
      (fun s => strStartsWith s dupIssueHead) = 1 := by
  simp only [validateAcademicData, List.countP_append]
  have hp : (if !truthyStr personal.name || !truthyStr personal.title
      then [personalIssue] else []).countP (fun s => strStartsWith s dupIssueHead) = 0 := by
    split_ifs
    · decide
    · rfl
  have hm : (perPubIssuesFrom cy 0 pubs).countP (fun s => strStartsWith s dupIssueHead) = 0 := by
    rw [List.countP_eq_zero]
    intro s hs
    obtain ⟨j, _, hcase⟩ := mem_perPubIssuesFrom cy pubs 0 s hs
    have hhead : s.data.head? = some 'P' := by
      rcases hcase with rfl | rfl | rfl
      · exact pubIssue_head (0 + j) missingSuffix
      · exact pubIssue_head (0 + j) doiSuffix
      · exact pubIssue_head (0 + j) yearSuffix
    simp [not_dup_marker_of_head_P s hhead]
  have hd : (if (jsDupTitles (pubs.map (fun p => strToLower p.title))).isEmpty
      then ([] : List String)
      else [dupIssueHead ++ String.intercalate commaSpace
              (jsDupTitles (pubs.map (fun p => strToLower p.title)))]).countP
        (fun s => strStartsWith s dupIssueHead) = 1 := by
    rw [if_neg (by simpa [List.isEmpty_iff] using hne)]
    have hpref : strStartsWith (dupIssueHead ++ String.intercalate commaSpace
        (jsDupTitles (pubs.map (fun p => strToLower p.title)))) dupIssueHead = true := by
      rw [strStartsWith, String.data_append, List.isPrefixOf_iff_prefix]
      exact List.prefix_append _ _
    simp [List.countP_cons, hpref]
  rw [hp, hm, hd]

/-- Claim C4: a publication with doi abc yields exactly one DOI-format
issue, a publication with year 1850 yields exactly one year-range issue, and
two publications sharing a case-insensitive title yield exactly one
duplicate-title issue (the validator aggregates all duplicates into a single
issue string carrying the duplicate-issue marker). -/
theorem validator_issue_counts :
    ∀ (personal : PersonalDoc) (pubs : List Pub) (cy : Int),
      (∀ (i : Nat) (p : Pub), pubs.get? i = some p → p.doi = some "abc" →
          (validateAcademicData personal pubs cy).count (pubIssueDoi i) = 1)
      ∧ (∀ (i : Nat) (p : Pub), pubs.get? i = some p → p.year = 1850 →
          (validateAcademicData personal pubs cy).count (pubIssueYear i) = 1)
      ∧ (∀ (t : String) (i j : Nat), i < j →
          (pubs.map (fun p => strToLower p.title)).get? i = some t →
          (pubs.map (fun p => strToLower p.title)).get? j = some t →
          (validateAcademicData personal pubs cy).countP
              (fun s => strStartsWith s dupIssueHead) = 1) := by
  intro personal pubs cy
  refine ⟨?_, ?_, ?_⟩
  · intro i p hget habc
    refine count_validate_doi personal pubs cy i p hget ?_
    rw [doiCheck, habc]
    decide
  · intro i p hget h1850
    refine count_validate_year personal pubs cy i p hget ?_
    rw [yearCheck, h1850]
    simp
  · intro t i j hij hi hj
    exact countP_validate_dup personal pubs cy
      (jsDupTitles_ne_nil _ t i j hij hi hj)

/-- Witness for claim C4 on a two-element collection: the first publication
has doi abc and year 1850, and the two publications share the title Dup
Title up to case. -/
theorem validator_issue_counts_witness :
    (validateAcademicData personalOk pubsC4 2025).count (pubIssueDoi 0) = 1
    ∧ (validateAcademicData personalOk pubsC4 2025).count (pubIssueYear 0) = 1
    ∧ (validateAcademicData personalOk pubsC4 2025).countP
        (fun s => strStartsWith s dupIssueHead) = 1 := by
  obtain ⟨h1, h2, h3⟩ := validator_issue_counts personalOk pubsC4 2025
  exact ⟨h1 0 emptyTitlePub (by decide) (by decide),
         h2 0 emptyTitlePub (by decide) (by decide),
         h3 "dup title" 0 1 (by decide) (by decide) (by decide)⟩

/-! ### Claim C8: the template engine -/

/-- The scan returns nothing on exhausted input, at any fuel. -/
theorem renderAux_nil (f : Nat) (data : Json) : renderAux f data [] = [] := by
  cases f
  · rfl
  · rfl

/-- Dispatch: the scan at positive fuel on a nonempty input. -/
theorem renderAux_cons_eq (f : Nat) (data : Json) (c : Char) (cs : List Char) :
    renderAux (f + 1) data (c :: cs)
      = (if c = '\x7b' then
           (match cs with
            | c2 :: cs2 =>
              if c2 = '\x7b' then
                match matchPlaceholder cs2 with
                | some (key, rest) =>
                    (match resolvePath data key with
                     | some v => (jsToStr v).data
                     | none => '\x7b' :: '\x7b' :: (key.data ++ ['\x7d', '\x7d']))
                      ++ renderAux f data rest
                | none => c :: renderAux f data cs
              else c :: renderAux f data cs
            | [] => [c])
         else c :: renderAux f data cs) := rfl

/-- Dispatch: one copied character. -/
theorem renderAux_copy (f : Nat) (data : Json) (c : Char) (cs : List Char)
    (h : c ≠ '\x7b') :
    renderAux (f + 1) data (c :: cs) = c :: renderAux f data cs := by
  rw [renderAux_cons_eq, if_neg h]

/-- Dispatch: a final opening brace is copied. -/
theorem renderAux_open_nil (f : Nat) (data : Json) :
    renderAux (f + 1) data ['\x7b'] = ['\x7b'] := rfl

/-- Dispatch: the scan after an opening brace. -/
theorem renderAux_open_cons (f : Nat) (data : Json) (c2 : Char) (cs2 : List Char) :
    renderAux (f + 1) data ('\x7b' :: c2 :: cs2)
      = (if c2 = '\x7b' then
           (match matchPlaceholder cs2 with
            | some (key, rest) =>
                (match resolvePath data key with
                 | some v => (jsToStr v).data
                 | none => '\x7b' :: '\x7b' :: (key.data ++ ['\x7d', '\x7d']))
                  ++ renderAux f data rest
            | none => '\x7b' :: renderAux f data (c2 :: cs2))
         else '\x7b' :: renderAux f data (c2 :: cs2)) := rfl

/-- Dispatch: the scan after two opening braces. -/
theorem renderAux_open2 (f : Nat) (data : Json) (cs2 : List Char) :
    renderAux (f + 1) data ('\x7b' :: '\x7b' :: cs2)
      = (match matchPlaceholder cs2 with
         | some (key, rest) =>
             (match resolvePath data key with
              | some v => (jsToStr v).data
              | none => '\x7b' :: '\x7b' :: (key.data ++ ['\x7d', '\x7d']))
               ++ renderAux f data rest
         | none => '\x7b' :: renderAux f data ('\x7b' :: cs2)) := by
  rw [renderAux_open_cons]
  rw [if_pos rfl]

theorem parseWordGroups_nil : parseWordGroups [] = ([], []) := by
  rw [parseWordGroups.eq_def]

/-- The key-group scan stops on anything but a dot. -/
theorem parseWordGroups_not_dot (c : Char) (cs : List Char) (h : c ≠ '.') :
    parseWordGroups (c :: cs) = ([], c :: cs) := by
  rw [parseWordGroups.eq_def]
  split
  · next cs1 heq =>
    exfalso
    injection heq with h1 _
    exact h h1
  · rfl

/-- The key-group scan on a dot-led group. -/
theorem parseWordGroups_dot (cs : List Char) :
    parseWordGroups ('.' :: cs)
      = (if (cs.takeWhile isWordChar).isEmpty then (([] : List Char), '.' :: cs)
         else
           ('.' :: (cs.takeWhile isWordChar
              ++ (parseWordGroups (cs.drop (cs.takeWhile isWordChar).length)).1),
            (parseWordGroups (cs.drop (cs.takeWhile isWordChar).length)).2)) := by
  rw [parseWordGroups]

/-- The remainder of the key-group scan is a suffix: its length never
exceeds the input length. -/
theorem parseWordGroups_snd_len : ∀ (n : Nat) (cs : List Char), cs.length ≤ n →
    (parseWordGroups cs).2.length ≤ cs.length := by
  intro n
  induction n with
  | zero =>
    intro cs h
    have hnil : cs = [] := List.eq_nil_of_length_eq_zero (by omega)
    subst hnil
    simp [parseWordGroups_nil]
  | succ n ih =>
    intro cs h
    cases cs with
    | nil => simp [parseWordGroups_nil]
    | cons c cs' =>
      by_cases hc : c = '.'
      · subst hc
        rw [parseWordGroups_dot]
        by_cases hw : (cs'.takeWhile isWordChar).isEmpty
        · simp [hw]
        · have hw' : ((cs'.takeWhile isWordChar).isEmpty = true) = False := by
            simp [hw]
          simp only [hw', if_false]
          have hd : (cs'.drop (cs'.takeWhile isWordChar).length).length ≤ n := by
            rw [List.length_drop]
            simp only [List.length_cons] at h
            omega
          have hrec := ih _ hd
          rw [List.length_drop] at hrec
          simp only [List.length_cons]
          omega
      · rw [parseWordGroups_not_dot c cs' hc]

/-- A successful placeholder match consumes the key and both closing
braces. -/
theorem matchPlaceholder_rest_len (cs : List Char) (key : String) (rest : List Char)
    (h : matchPlaceholder cs = some (key, rest)) : rest.length + 2 ≤ cs.length := by
  simp only [matchPlaceholder] at h
  by_cases hw : (cs.takeWhile isWordChar).isEmpty = true
  · rw [if_pos hw] at h
    cases h
  · rw [if_neg hw] at h
    have hlen := parseWordGroups_snd_len
      (cs.drop (cs.takeWhile isWordChar).length).length
      (cs.drop (cs.takeWhile isWordChar).length) (le_refl _)
    split at h
    · next rest1 heq =>
      injection h with hpair
      have hr : rest1 = rest := congrArg Prod.snd hpair
      subst hr
      rw [heq] at hlen
      simp only [List.length_cons] at hlen
      rw [List.length_drop] at hlen
      omega
    · cases h

/-- The scan result only depends on the fuel once the fuel covers the input
length. -/
theorem renderAux_fuel : ∀ (n : Nat) (cs : List Char), cs.length ≤ n →
    ∀ (data : Json) (f g : Nat), cs.length ≤ f → cs.length ≤ g →
      renderAux f data cs = renderAux g data cs := by
  intro n
  induction n with
  | zero =>
    intro cs hcs data f g hf hg
    have hnil : cs = [] := List.eq_nil_of_length_eq_zero (by omega)
    subst hnil
    rw [renderAux_nil, renderAux_nil]
  | succ n ih =>
    intro cs hcs data f g hf hg
    cases cs with
    | nil => rw [renderAux_nil, renderAux_nil]
    | cons c cs' =>
      simp only [List.length_cons] at hcs hf hg
      obtain ⟨f', rfl⟩ : ∃ f', f = f' + 1 := ⟨f - 1, by omega⟩
      obtain ⟨g', rfl⟩ : ∃ g', g = g' + 1 := ⟨g - 1, by omega⟩
      by_cases hc : c = '\x7b'
      · subst hc
        cases cs' with
        | nil => rw [renderAux_open_nil, renderAux_open_nil]
        | cons c2 cs2 =>
          simp only [List.length_cons] at hcs hf hg
          by_cases hc2 : c2 = '\x7b'
          · subst hc2
            rw [renderAux_open2, renderAux_open2]
            cases hm : matchPlaceholder cs2 with
            | some kr =>
              obtain ⟨key, rest⟩ := kr
              have hlen := matchPlaceholder_rest_len cs2 key rest hm
              show (match resolvePath data key with
                    | some v => (jsToStr v).data
                    | none => '\x7b' :: '\x7b' :: (key.data ++ ['\x7d', '\x7d']))
                      ++ renderAux f' data rest
                  = (match resolvePath data key with
                    | some v => (jsToStr v).data
                    | none => '\x7b' :: '\x7b' :: (key.data ++ ['\x7d', '\x7d']))
                      ++ renderAux g' data rest
              congr 1
              exact ih rest (by omega) data f' g' (by omega) (by omega)
            | none =>
              show '\x7b' :: renderAux f' data ('\x7b' :: cs2)
                  = '\x7b' :: renderAux g' data ('\x7b' :: cs2)
              congr 1
              exact ih ('\x7b' :: cs2) (by simp; omega) data f' g'
                (by simp; omega) (by simp; omega)
          · rw [renderAux_open_cons, renderAux_open_cons, if_neg hc2, if_neg hc2]
            congr 1
            exact ih (c2 :: cs2) (by simp; omega) data f' g'
              (by simp; omega) (by simp; omega)
      · rw [renderAux_copy f' data c cs' hc, renderAux_copy g' data c cs' hc]
        congr 1
        exact ih cs' (by omega) data f' g' (by omega) (by omega)

/-- takeWhile recovers a satisfying prefix cut at a failing head. -/
theorem takeWhile_all_append (p : Char → Bool) (A S : List Char)
    (hA : ∀ c ∈ A, p c = true)
    (hS : ∀ c, S.head? = some c → p c = false) :
    (A ++ S).takeWhile p = A := by
  induction A with
  | nil =>
    cases S with
    | nil => rfl
    | cons c t => simp [List.takeWhile_cons, hS c rfl]
  | cons a t ih =>
    have ha : p a = true := hA a (List.mem_cons_self a t)
    simp only [List.cons_append, List.takeWhile_cons, ha, if_true]
    rw [ih (fun c hc => hA c (List.mem_cons_of_mem a hc))]

/-- Dropping the scanned prefix length is dropWhile. -/
theorem drop_takeWhile_len (p : Char → Bool) (l : List Char) :
    l.drop (l.takeWhile p).length = l.dropWhile p := by
  induction l with
  | nil => rfl
  | cons a t ih =>
    by_cases h : p a = true
    · simp [List.takeWhile_cons, List.dropWhile_cons, h, ih]
    · have h' : p a = false := by
        cases hh : p a
        · rfl
        · exact absurd hh h
      simp [List.takeWhile_cons, List.dropWhile_cons, h']

/-- The head surviving dropWhile fails the scan predicate. -/
theorem dropWhile_head_false (p : Char → Bool) (l : List Char) :
    ∀ c, (l.dropWhile p).head? = some c → p c = false := by
  induction l with
  | nil =>
    intro c h
    cases h
  | cons a t ih =>
    intro c h
    by_cases ha : p a = true
    · rw [List.dropWhile_cons, if_pos ha] at h
      exact ih c h
    · have ha' : p a = false := by
        cases hh : p a
        · rfl
        · exact absurd hh ha
      rw [List.dropWhile_cons, if_neg (by simp [ha'])] at h
      injection h with h
      subst h
      exact ha'

theorem validGroupsB_nil (f : Nat) : validGroupsB f [] = true := by
  cases f
  · rfl
  · rfl

/-- Dispatch: the group grammar on a dot-led list, at positive fuel. -/
theorem validGroupsB_dot (f : Nat) (cs : List Char) :
    validGroupsB (f + 1) ('.' :: cs)
      = (!(cs.takeWhile isWordChar).isEmpty
          && validGroupsB f (cs.drop (cs.takeWhile isWordChar).length)) := rfl

/-- Dispatch: the group grammar rejects a list led by anything but a dot. -/
theorem validGroupsB_other (f : Nat) (c : Char) (cs : List Char) (h : c ≠ '.') :
    validGroupsB (f + 1) (c :: cs) = false := by
  rw [validGroupsB.eq_def]
  split
  · rfl
  · rename_i heq1 heq2
    exact absurd heq2 (by simp)
  · rename_i heq1 heq2
    exfalso
    injection heq2 with h2 _
    exact h h2
  · rfl

/-- A valid group list is empty or led by a dot. -/
theorem validGroupsB_head (n : Nat) (G : List Char) (h : validGroupsB n G = true) :
    G = [] ∨ ∃ t, G = '.' :: t := by
  cases G with
  | nil => exact Or.inl rfl
  | cons c t =>
    right
    by_cases hc : c = '.'
    · exact ⟨t, by rw [hc]⟩
    · exfalso
      cases n with
      | zero => cases h
      | succ n =>
        rw [validGroupsB_other n c t hc] at h
        cases h

/-- Fuel stability of the group grammar. -/
theorem validGroupsB_fuel : ∀ (n : Nat) (G : List Char) (f g : Nat),
    G.length ≤ n → G.length ≤ f → G.length ≤ g →
    validGroupsB f G = validGroupsB g G := by
  intro n
  induction n with
  | zero =>
    intro G f g hn _ _
    have hnil : G = [] := List.eq_nil_of_length_eq_zero (by omega)
    subst hnil
    rw [validGroupsB_nil, validGroupsB_nil]
  | succ n ih =>
    intro G f g hn hf hg
    cases G with
    | nil => rw [validGroupsB_nil, validGroupsB_nil]
    | cons c t =>
      simp only [List.length_cons] at hn hf hg
      obtain ⟨f', rfl⟩ : ∃ f', f = f' + 1 := ⟨f - 1, by omega⟩
      obtain ⟨g', rfl⟩ : ∃ g', g = g' + 1 := ⟨g - 1, by omega⟩
      by_cases hc : c = '.'
      · subst hc
        rw [validGroupsB_dot, validGroupsB_dot]
        have hlen : (t.drop (t.takeWhile isWordChar).length).length ≤ t.length := by
          rw [List.length_drop]
          omega
        rw [ih (t.drop (t.takeWhile isWordChar).length) f' g'
          (by omega) (by omega) (by omega)]
      · rw [validGroupsB_other f' c t hc, validGroupsB_other g' c t hc]

/-- The key-group scan consumes exactly a valid group list when the
following text opens with a character that can extend neither a word nor a
group. -/
theorem parseWordGroups_valid : ∀ (n : Nat) (G S : List Char), G.length ≤ n →
    validGroupsB G.length G = true →
    (∀ c, S.head? = some c → isWordChar c = false ∧ c ≠ '.') →
    parseWordGroups (G ++ S) = (G, S) := by
  intro n
  induction n with
  | zero =>
    intro G S hn _ hS
    have hnil : G = [] := List.eq_nil_of_length_eq_zero (by omega)
    subst hnil
    cases S with
    | nil => exact parseWordGroups_nil
    | cons c t => exact parseWordGroups_not_dot c t (hS c rfl).2
  | succ n ih =>
    intro G S hn hv hS
    cases G with
    | nil =>
      cases S with
      | nil => exact parseWordGroups_nil
      | cons c t => exact parseWordGroups_not_dot c t (hS c rfl).2
    | cons c t =>
      obtain hG | ⟨t', heq⟩ := validGroupsB_head _ _ hv
      · cases hG
      · have hc : c = '.' := by injection heq with h1 _
        have ht : t = t' := by injection heq with _ h2
        subst hc
        subst ht
        simp only [List.length_cons] at hn hv
        rw [validGroupsB_dot] at hv
        simp only [Bool.and_eq_true, Bool.not_eq_true'] at hv
        obtain ⟨hw, hrec0⟩ := hv
        have hsplit : t = t.takeWhile isWordChar ++ t.dropWhile isWordChar :=
          (List.takeWhile_append_dropWhile isWordChar t).symm
        have hw_all : ∀ x ∈ t.takeWhile isWordChar, isWordChar x = true :=
          fun x hx => List.mem_takeWhile_imp hx
        have htail_head : ∀ c, (t.dropWhile isWordChar ++ S).head? = some c →
            isWordChar c = false := by
          intro c hc
          cases hdw : t.dropWhile isWordChar with
          | nil =>
            rw [hdw] at hc
            exact (hS c hc).1
          | cons d ds =>
            rw [hdw] at hc
            injection hc with hc
            rw [← hc]
            exact dropWhile_head_false isWordChar t d (by rw [hdw]; rfl)
        have hw_eq : (t ++ S).takeWhile isWordChar = t.takeWhile isWordChar := by
          conv_lhs => rw [hsplit]
          rw [List.append_assoc]
          exact takeWhile_all_append isWordChar _ _ hw_all htail_head
        have hdrop_eq : (t ++ S).drop (t.takeWhile isWordChar).length
            = t.dropWhile isWordChar ++ S := by
          have h2 : t ++ S = t.takeWhile isWordChar ++ (t.dropWhile isWordChar ++ S) := by
            rw [← List.append_assoc, List.takeWhile_append_dropWhile]
          rw [h2, List.drop_left]
        show parseWordGroups ('.' :: (t ++ S)) = ('.' :: t, S)
        rw [parseWordGroups_dot]
        rw [hw_eq]
        have hwe : ((t.takeWhile isWordChar).isEmpty = true) = False := by
          simp [hw]
        simp only [hwe, if_false]
        rw [hdrop_eq]
        have hdw_le : (t.dropWhile isWordChar).length ≤ t.length := by
          rw [← drop_takeWhile_len isWordChar t, List.length_drop]
          omega
        have hdlen : (t.dropWhile isWordChar).length ≤ n := by omega
        have hfuel : validGroupsB (t.dropWhile isWordChar).length
            (t.dropWhile isWordChar) = true := by
          rw [← validGroupsB_fuel n (t.dropWhile isWordChar)
            t.length (t.dropWhile isWordChar).length hdlen
            (by omega) (le_refl _)]
          rw [← drop_takeWhile_len isWordChar t]
          exact hrec0
        rw [ih (t.dropWhile isWordChar) S hdlen hfuel
          (fun c hc => hS c hc)]
        conv_rhs => rw [hsplit]

theorem stringMkData (s : String) : String.mk s.data = s := by
  cases s
  rfl

/-- The placeholder matcher accepts exactly a valid key followed by the two
closing braces. -/
theorem matchPlaceholder_of_valid (key : String) (B : List Char) (hk : ValidKey key) :
    matchPlaceholder (key.data ++ ('\x7d' :: '\x7d' :: B)) = some (key, B) := by
  rw [ValidKey] at hk
  rw [validKeyChars] at hk
  simp only [Bool.and_eq_true, Bool.not_eq_true'] at hk
  obtain ⟨hW, hG⟩ := hk
  have hG_head := validGroupsB_head key.data.length
    (key.data.drop (key.data.takeWhile isWordChar).length) hG
  have hsplit : key.data
      = key.data.takeWhile isWordChar ++ key.data.dropWhile isWordChar :=
    (List.takeWhile_append_dropWhile isWordChar key.data).symm
  rw [drop_takeWhile_len] at hG hG_head
  have hw_all : ∀ x ∈ key.data.takeWhile isWordChar, isWordChar x = true :=
    fun x hx => List.mem_takeWhile_imp hx
  have htail_head : ∀ c, (key.data.dropWhile isWordChar ++ ('\x7d' :: '\x7d' :: B)).head?
      = some c → isWordChar c = false := by
    intro c hc
    cases hdw : key.data.dropWhile isWordChar with
    | nil =>
      rw [hdw] at hc
      injection hc with hc
      rw [← hc]
      decide
    | cons d ds =>
      rw [hdw] at hc
      injection hc with hc
      rw [← hc]
      exact dropWhile_head_false isWordChar key.data d (by rw [hdw]; rfl)
  have hw_eq : (key.data ++ ('\x7d' :: '\x7d' :: B)).takeWhile isWordChar
      = key.data.takeWhile isWordChar := by
    conv_lhs => rw [hsplit]
    rw [List.append_assoc]
    exact takeWhile_all_append isWordChar _ _ hw_all htail_head
  have hdrop_eq : (key.data ++ ('\x7d' :: '\x7d' :: B)).drop
        (key.data.takeWhile isWordChar).length
      = key.data.dropWhile isWordChar ++ ('\x7d' :: '\x7d' :: B) := by
    have h2 : key.data ++ ('\x7d' :: '\x7d' :: B)
        = key.data.takeWhile isWordChar
            ++ (key.data.dropWhile isWordChar ++ ('\x7d' :: '\x7d' :: B)) := by
      rw [← List.append_assoc, List.takeWhile_append_dropWhile]
    rw [h2, List.drop_left]
  have hdw_le : (key.data.dropWhile isWordChar).length ≤ key.data.length := by
    rw [← drop_takeWhile_len isWordChar key.data, List.length_drop]
    omega
  have hfuel : validGroupsB (key.data.dropWhile isWordChar).length
      (key.data.dropWhile isWordChar) = true := by
    rw [← validGroupsB_fuel key.data.length (key.data.dropWhile isWordChar)
      key.data.length (key.data.dropWhile isWordChar).length hdw_le
      hdw_le (le_refl _)]
    exact hG
  have hparse := parseWordGroups_valid (key.data.dropWhile isWordChar).length
    (key.data.dropWhile isWordChar) ('\x7d' :: '\x7d' :: B) (le_refl _) hfuel
    (by
      intro c hc
      injection hc with hc
      rw [← hc]
      exact ⟨by decide, by decide⟩)
  simp only [matchPlaceholder]
  rw [hw_eq]
  have hwe : ((key.data.takeWhile isWordChar).isEmpty = true) = False := by
    simp [hW]
  simp only [hwe, if_false]
  rw [hdrop_eq, hparse]
  show some (String.mk (key.data.takeWhile isWordChar
      ++ key.data.dropWhile isWordChar), B) = some (key, B)
  rw [← hsplit, stringMkData]

/-- The scan copies a brace-free prefix verbatim. -/
theorem renderAux_inert_append : ∀ (A : List Char), '\x7b' ∉ A → ∀ (B : List Char) (data : Json),
    renderAux (A ++ B).length data (A ++ B) = A ++ renderAux B.length data B := by
  intro A
  induction A with
  | nil =>
    intro _ B data
    simp
  | cons a A' ih =>
    intro hA B data
    have ha : a ≠ '\x7b' := fun h => hA (by rw [h]; exact List.mem_cons_self _ _)
    have hA' : '\x7b' ∉ A' := fun h => hA (List.mem_cons_of_mem a h)
    rw [List.cons_append]
    rw [show ((a :: (A' ++ B)).length) = (A' ++ B).length + 1 from by simp]
    rw [renderAux_copy _ data a _ ha]
    rw [ih hA' B data]
    rw [List.cons_append]

/-- The scan consumes one placeholder and replaces it by the resolved value,
or copies it verbatim when the path is unresolved. -/
theorem renderAux_placeholder_append (key : String) (B : List Char) (data : Json)
    (hk : ValidKey key) :
    renderAux ((placeholderOf key).data ++ B).length data ((placeholderOf key).data ++ B)
      = (match resolvePath data key with
         | some v => (jsToStr v).data
         | none => (placeholderOf key).data) ++ renderAux B.length data B := by
  have hdata : (placeholderOf key).data
      = '\x7b' :: '\x7b' :: (key.data ++ ['\x7d', '\x7d']) := by
    simp [placeholderOf, openBraces, closeBraces, String.data_append]
  rw [hdata]
  have hlist : (('\x7b' :: '\x7b' :: (key.data ++ ['\x7d', '\x7d'])) ++ B)
      = '\x7b' :: '\x7b' :: (key.data ++ ('\x7d' :: '\x7d' :: B)) := by
    simp [List.append_assoc]
  rw [hlist]
  rw [show ('\x7b' :: '\x7b' :: (key.data ++ ('\x7d' :: '\x7d' :: B))).length
      = (key.data ++ ('\x7d' :: '\x7d' :: B)).length + 1 + 1 from by simp]
  rw [renderAux_open2]
  rw [matchPlaceholder_of_valid key B hk]
  show (match resolvePath data key with
        | some v => (jsToStr v).data
        | none => '\x7b' :: '\x7b' :: (key.data ++ ['\x7d', '\x7d']))
          ++ renderAux ((key.data ++ ('\x7d' :: '\x7d' :: B)).length + 1) data B
      = _
  congr 1
  exact renderAux_fuel B.length B (le_refl _) data _ B.length
    (by simp; omega) (le_refl _)

/-- The scan is a homomorphism on a template assembled from brace-free
pieces and whole placeholders. -/
theorem renderAux_flatten : ∀ (ps : List (List Char)) (data : Json),
    (∀ A ∈ ps, ('\x7b' ∉ A) ∨ ∃ key, ValidKey key ∧ A = (placeholderOf key).data) →
    renderAux ps.flatten.length data ps.flatten
      = (ps.map (fun A => renderAux A.length data A)).flatten := by
  intro ps
  induction ps with
  | nil =>
    intro data _
    simp [renderAux_nil]
  | cons A ps' ih =>
    intro data h
    have hA := h A (List.mem_cons_self A ps')
    have hrest := fun A' hA' => h A' (List.mem_cons_of_mem A hA')
    rw [List.flatten_cons, List.map_cons, List.flatten_cons]
    rcases hA with hin | ⟨key, hkey, rfl⟩
    · rw [renderAux_inert_append A hin ps'.flatten data]
      rw [ih data hrest]
      congr 1
      have hone := renderAux_inert_append A hin [] data
      simp only [List.append_nil, renderAux_nil] at hone
      rw [hone]
    · rw [renderAux_placeholder_append key ps'.flatten data hkey]
      rw [ih data hrest]
      congr 1
      have hone := renderAux_placeholder_append key [] data hkey
      simp only [List.append_nil, renderAux_nil] at hone
      rw [hone]

/-- Claim C8: the template engine replaces each placeholder with the value
found by dotted-path lookup into the data record, an unresolved placeholder
passes through literally unchanged, and on a template assembled from
brace-free pieces and whole placeholders the substitution acts piecewise. -/
theorem renderTemplate_spec :
    (∀ (key : String) (data : Json), ValidKey key →
        renderTemplate (placeholderOf key) data
          = (match resolvePath data key with
             | some v => jsToStr v
             | none => placeholderOf key))
    ∧ ∀ (pieces : List String) (data : Json),
        (∀ s ∈ pieces, InertPiece s ∨ PlaceholderPiece s) →
        renderTemplate (pieces.foldr (fun a b => a ++ b) "") data
          = (pieces.map (fun s => renderTemplate s data)).foldr (fun a b => a ++ b) "" := by
  constructor
  · intro key data hk
    rw [renderTemplate]
    have hone := renderAux_placeholder_append key [] data hk
    simp only [List.append_nil, renderAux_nil] at hone
    rw [hone]
    cases hr : resolvePath data key with
    | some v => exact stringMkData (jsToStr v)
    | none => exact stringMkData (placeholderOf key)
  · intro pieces data h
    have hdata : ∀ l : List String,
        (l.foldr (fun a b => a ++ b) "").data = (l.map String.data).flatten := by
      intro l
      induction l with
      | nil => rfl
      | cons s t ih => simp [List.foldr_cons, String.data_append, ih]
    rw [renderTemplate]
    apply stringExt
    rw [hdata]
    rw [hdata]
    rw [renderAux_flatten (pieces.map String.data) data]
    · rw [List.map_map, List.map_map]
      rfl
    · intro A hA
      obtain ⟨s, hs, rfl⟩ := List.mem_map.mp hA
      rcases h s hs with hin | ⟨key, hkey, rfl⟩
      · exact Or.inl hin
      · exact Or.inr ⟨key, hkey, rfl⟩

/-- Witness for claim C8 at the concrete template and data record. -/
theorem renderTemplate_spec_witness :
    renderTemplate (placeholderOf keyC8) dataC8
      = (match resolvePath dataC8 keyC8 with
         | some v => jsToStr v
         | none => placeholderOf keyC8) :=
  renderTemplate_spec.1 keyC8 dataC8 (by rw [ValidKey]; decide)
